import Mathlib

/-!
Verification of the fcps-study extraction-and-repair pipeline.

This file gives a shallow embedding of the core pipeline of the repository:
the explanation-backfill driver (`scripts/generate-explanations.ts`), the
question-extraction driver (`app/lib/pdf-processor.ts`), and the JSON repair
engine together with the gateway's JSON-parsing behaviour
(`app/lib/gemini-client.ts`).  External effects (the Gemini model, the PDF
rasterizer, the filesystem) are modelled as oracle functions passed in as
parameters; checkpoint writes and progress-callback invocations are recorded
in the returned state so that the drivers' observable interaction with the
outside world can be stated and proved.
-/

/-! ## Data model of the explanation backfill driver
Mirrors the `Question` / `PaperData` interfaces of
`scripts/generate-explanations.ts`. -/

structure Question where
  questionText : String
  choices : List String
  correctChoice : Option Int
  orderIndex : Int
  explanation : Option String
deriving DecidableEq

structure PaperStats where
  totalQuestions : Nat
  pagesProcessed : Option Nat
  tokensUsed : Option Nat
  estimatedCost : Option String
deriving DecidableEq

structure PaperData where
  name : String
  source : String
  startPage : Option Int
  endPage : Option Int
  questions : List Question
  stats : Option PaperStats
deriving DecidableEq

/-- JavaScript truthiness of the optional `explanation` string field:
`undefined`, `null` and the empty string are all falsy. -/
def truthyStr : Option String → Bool
  | none => false
  | some s => !(s == "")

/-- The pending-set loop of `main` (generate-explanations.ts, lines 192-203):
iterate all questions in order, skip when `skipExisting` is set and the
question already has a (truthy) explanation, skip unconditionally when
`correctChoice` is `null`.  `i` is the index of the first question of the
remaining list. -/
def questionsToProcessAux (skipExisting : Bool) : List Question → Nat → List Nat
  | [], _ => []
  | q :: rest, i =>
    if skipExisting && truthyStr q.explanation then
      questionsToProcessAux skipExisting rest (i + 1)
    else if q.correctChoice = none then
      questionsToProcessAux skipExisting rest (i + 1)
    else
      i :: questionsToProcessAux skipExisting rest (i + 1)

def questionsToProcess (skipExisting : Bool) (qs : List Question) : List Nat :=
  questionsToProcessAux skipExisting qs 0

/-- `data.questions[idx].explanation = result.explanation` -/
def updateExplanation : List Question → Nat → String → List Question
  | [], _, _ => []
  | q :: rest, 0, e => { q with explanation := some e } :: rest
  | q :: rest, n + 1, e => q :: updateExplanation rest n e

/-- Observable state of one backfill run: the (mutated-in-place) paper data,
the success / token / error counters of `main`, the sequence of checkpoint
snapshots written with `saveCheckpoint`, and the list of question indices for
which a model call was issued. -/
structure BackfillState where
  data : PaperData
  processed : Nat
  totalTokens : Nat
  errors : Nat
  checkpoints : List PaperData
  calls : List Nat
deriving DecidableEq

/-- One iteration of the `for (const idx of questionsToProcess)` loop.  The
oracle models the outcome of `generateExplanation` for the question at a given
index: either an explanation string plus its `usage.totalTokens`, or a thrown
error.  On success the explanation is written in place, the counters are
updated and, whenever the new success count is an exact multiple of
`batchSize`, a checkpoint of the whole paper data is written.  On error the
error counter is incremented and the loop continues. -/
def backfillStep (batchSize : Nat) (oracle : Nat → Except String (String × Nat))
    (s : BackfillState) (idx : Nat) : BackfillState :=
  match oracle idx with
  | Except.ok r =>
    let data' : PaperData := { s.data with questions := updateExplanation s.data.questions idx r.1 }
    let processed' := s.processed + 1
    { data := data'
      processed := processed'
      totalTokens := s.totalTokens + r.2
      errors := s.errors
      checkpoints := if processed' % batchSize = 0 then s.checkpoints ++ [data'] else s.checkpoints
      calls := s.calls ++ [idx] }
  | Except.error _ =>
    { s with errors := s.errors + 1, calls := s.calls ++ [idx] }

def backfillInit (data : PaperData) : BackfillState :=
  ⟨data, 0, 0, 0, [], []⟩

/-- The processing phase of `main` (lines 224-253): compute the pending set,
run the loop, then always write a final checkpoint. -/
def backfillRun (batchSize : Nat) (oracle : Nat → Except String (String × Nat))
    (skipExisting : Bool) (data : PaperData) : BackfillState :=
  let pending := questionsToProcess skipExisting data.questions
  let s := pending.foldl (backfillStep batchSize oracle) (backfillInit data)
  { s with checkpoints := s.checkpoints ++ [s.data] }

/-! ## Data model of the question extraction driver
Mirrors `app/lib/pdf-processor.ts`: `PageImage`, `ExtractedQuestion`,
`PageExtractionResult`, `PaperExtractionResult` and the gateway's
`TokenUsage`. -/

structure PageImage where
  pageNumber : Nat
  base64 : String
  mimeType : String
deriving DecidableEq

structure TokenUsage where
  promptTokens : Nat
  completionTokens : Nat
  totalTokens : Nat
deriving DecidableEq

def TokenUsage.add (a b : TokenUsage) : TokenUsage :=
  ⟨a.promptTokens + b.promptTokens, a.completionTokens + b.completionTokens,
    a.totalTokens + b.totalTokens⟩

def zeroUsage : TokenUsage := ⟨0, 0, 0⟩

/-- A question as it appears in the model's parsed per-page JSON response
(the `GeminiQuestionResponse` element shape). -/
structure RawQuestion where
  questionText : String
  choices : List String
  correctChoice : Option Int
deriving DecidableEq

structure ExtractedQuestion where
  questionText : String
  choices : List String
  correctChoice : Option Int
  pageNumber : Nat
  questionNumber : Option Nat
deriving DecidableEq

structure PageExtractionResult where
  pageNumber : Nat
  questions : List ExtractedQuestion
  usage : TokenUsage
deriving DecidableEq

structure PaperExtractionResult where
  questions : List ExtractedQuestion
  totalUsage : TokenUsage
  pagesProcessed : Nat
deriving DecidableEq

/-- The `(data.questions || []).map((q, idx) => ...)` step of
`extractQuestionsFromPage`: attach the page number and a provisional 1-based
`questionNumber` (`idx + 1`) to each raw question.  `idx` is the 0-based index
of the first question of the remaining list. -/
def toExtracted (pageNumber : Nat) : List RawQuestion → Nat → List ExtractedQuestion
  | [], _ => []
  | q :: rest, idx =>
    ⟨q.questionText, q.choices, q.correctChoice, pageNumber, some (idx + 1)⟩ ::
      toExtracted pageNumber rest (idx + 1)

/-- `extractQuestionsFromPage`: one gateway call for one page image.  The
oracle models the outcome of `client.analyzeImage` at the typed interface: a
thrown error (gateway transport failure or JSON-parse failure) or the parsed
`questions` array with the call's token usage.  A gateway error propagates. -/
def extractQuestionsFromPage
    (oracle : PageImage → Except String (List RawQuestion × TokenUsage))
    (img : PageImage) : Except String PageExtractionResult :=
  match oracle img with
  | Except.error e => Except.error e
  | Except.ok r => Except.ok ⟨img.pageNumber, toExtracted img.pageNumber r.1 0, r.2⟩

/-- The final renumbering pass of `extractQuestionsFromPages`:
`allQuestions.forEach((q, idx) => q.questionNumber = idx + 1)`. -/
def renumberFrom : List ExtractedQuestion → Nat → List ExtractedQuestion
  | [], _ => []
  | q :: rest, i => { q with questionNumber := some (i + 1) } :: renumberFrom rest (i + 1)

/-- The page loop of `extractQuestionsFromPages` over the list of page
numbers.  `ras` models `convertPdfPagesToImages(pdfPath, [pageNum])`; a page
yielding no image is logged and skipped (without any progress report), a
gateway error aborts the whole loop, and each successfully processed page
appends one progress-callback invocation
`(pageNum - startPage + 1, totalPages, questions on the page)` to the trace. -/
def extractLoop (oracle : PageImage → Except String (List RawQuestion × TokenUsage))
    (ras : Nat → List PageImage) (startPage totalPages : Nat) :
    List Nat → Except String (List ExtractedQuestion × TokenUsage × List (Nat × Nat × Nat))
  | [] => Except.ok ([], zeroUsage, [])
  | p :: rest =>
    match ras p with
    | [] => extractLoop oracle ras startPage totalPages rest
    | img :: _ =>
      match extractQuestionsFromPage oracle img with
      | Except.error e => Except.error e
      | Except.ok r =>
        match extractLoop oracle ras startPage totalPages rest with
        | Except.error e => Except.error e
        | Except.ok acc =>
          Except.ok (r.questions ++ acc.1, TokenUsage.add r.usage acc.2.1,
            (p - startPage + 1, totalPages, r.questions.length) :: acc.2.2)

/-- `extractQuestionsFromPages(pdfPath, startPage, endPage, onProgress)`:
process the pages `startPage..endPage` sequentially, then renumber all
collected questions `1..N`.  Returns the `PaperExtractionResult` together
with the recorded progress-callback trace. -/
def extractQuestionsFromPages
    (oracle : PageImage → Except String (List RawQuestion × TokenUsage))
    (ras : Nat → List PageImage) (startPage endPage : Nat) :
    Except String (PaperExtractionResult × List (Nat × Nat × Nat)) :=
  let totalPages := endPage + 1 - startPage
  match extractLoop oracle ras startPage totalPages (List.range' startPage totalPages) with
  | Except.error e => Except.error e
  | Except.ok acc => Except.ok (⟨renumberFrom acc.1 0, acc.2.1, totalPages⟩, acc.2.2)

/-! ## The JSON repair engine (`sanitizeJsonResponse`, gemini-client.ts 242-288)
and a model of `JSON.parse`.

`JSON.parse` is modelled as an RFC 8259 recursive-descent parser over
`List Char`.  Numbers are kept as their raw lexeme (JavaScript converts the
lexeme to a double; the lexeme determines that double), and objects keep
their member list as parsed. -/

def lbrace : Char := Char.ofNat 123

def rbrace : Char := Char.ofNat 125

/-- The whitespace set of `String.prototype.trim` restricted to the characters
that can occur next to JSON or fenced model output (JavaScript additionally
trims `\f`, `\v` and Unicode spaces, none of which border valid JSON). These
four are also exactly the insignificant-whitespace characters of JSON. -/
def isWsChar (c : Char) : Bool := c = ' ' || c = '\t' || c = '\n' || c = '\r'

def skipWs (cs : List Char) : List Char := cs.dropWhile isWsChar

/-- `text.trim()` on the character list. -/
def trimL (cs : List Char) : List Char :=
  ((cs.dropWhile isWsChar).reverse.dropWhile isWsChar).reverse

/-- First half of step 2 of `sanitizeJsonResponse`: if the text starts with
```` ```json ```` drop those 7 characters, else if it starts with
```` ``` ```` drop 3. -/
def stripFront (cs : List Char) : List Char :=
  if cs.take 7 = "```json".data then cs.drop 7
  else if cs.take 3 = "```".data then cs.drop 3
  else cs

/-- Second half of step 2: if the text ends with ```` ``` ```` drop the final
3 characters. -/
def stripEnd (cs : List Char) : List Char :=
  if 3 ≤ cs.length ∧ cs.drop (cs.length - 3) = "```".data then cs.take (cs.length - 3) else cs

def stripFences (cs : List Char) : List Char := stripEnd (stripFront cs)

/-- The character scan of `sanitizeJsonResponse` (lines 259-285): track an
"inside a string" flag, toggled on each `"` whose predecessor in the original
text is not a backslash (`prev` is that predecessor, `none` at position 0);
while inside a string replace a literal newline / carriage return / tab by its
two-character escape; pass everything else through. -/
def scanFix : Bool → Option Char → List Char → List Char
  | _, _, [] => []
  | inString, prev, c :: rest =>
    if c = '"' ∧ prev ≠ some '\\' then c :: scanFix (!inString) (some c) rest
    else if inString then
      (if c = '\n' then ['\\', 'n']
       else if c = '\r' then ['\\', 'r']
       else if c = '\t' then ['\\', 't']
       else [c]) ++ scanFix inString (some c) rest
    else c :: scanFix inString (some c) rest

def sanitizeList (cs : List Char) : List Char :=
  scanFix false none (trimL (stripFences (trimL cs)))

def sanitizeJsonResponse (s : String) : String := ⟨sanitizeList s.data⟩

/-! ### The `JSON.parse` model -/

inductive Json where
  | jnull : Json
  | jbool : Bool → Json
  | jnum : String → Json
  | jstr : String → Json
  | jarr : List Json → Json
  | jobj : List (String × Json) → Json

def isDigitChar (c : Char) : Bool := '0' ≤ c && c ≤ '9'

/-- Single-character string escapes of JSON. -/
def escapeChar : Char → Option Char
  | '"' => some '"'
  | '\\' => some '\\'
  | '/' => some '/'
  | 'b' => some (Char.ofNat 8)
  | 'f' => some (Char.ofNat 12)
  | 'n' => some '\n'
  | 'r' => some '\r'
  | 't' => some '\t'
  | _ => none

/-- Parse the body of a JSON string literal (the opening quote already
consumed); returns the decoded content and the remainder after the closing
quote.  Raw control characters below U+0020 are rejected, as `JSON.parse`
does.  `\uXXXX` escapes are not modelled (JavaScript decodes them to UTF-16
code units; nothing in this pipeline's prompts or data uses them) — a string
containing one is rejected. -/
def parseStringBody : List Char → Option (List Char × List Char)
  | [] => none
  | c :: rest =>
    if c = '"' then some ([], rest)
    else if c = '\\' then
      match rest with
      | [] => none
      | e :: rest1 =>
        match escapeChar e with
        | some ec =>
          match parseStringBody rest1 with
          | none => none
          | some r => some (ec :: r.1, r.2)
        | none => none
    else if c.toNat < 0x20 then none
    else
      match parseStringBody rest with
      | none => none
      | some r => some (c :: r.1, r.2)

/-- The integer-digits part of a JSON number: `0`, or a nonzero digit followed
by more digits. -/
def parseIntDigits : List Char → Option (List Char × List Char)
  | [] => none
  | c :: t =>
    if c = '0' then some (['0'], t)
    else if isDigitChar c then some (c :: t.takeWhile isDigitChar, t.dropWhile isDigitChar)
    else none

/-- The optional fraction part: `.` followed by one or more digits. -/
def parseFracPart : List Char → Option (List Char × List Char)
  | [] => some ([], [])
  | c :: t =>
    if c = '.' then
      if t.takeWhile isDigitChar = [] then none
      else some ('.' :: t.takeWhile isDigitChar, t.dropWhile isDigitChar)
    else some ([], c :: t)

/-- The optional exponent part: `e`/`E`, an optional sign, one or more
digits. -/
def parseExpPart : List Char → Option (List Char × List Char)
  | [] => some ([], [])
  | c :: t =>
    if c = 'e' || c = 'E' then
      if t.take 1 = ['+'] || t.take 1 = ['-'] then
        if (t.drop 1).takeWhile isDigitChar = [] then none
        else some (c :: (t.take 1 ++ (t.drop 1).takeWhile isDigitChar),
                   (t.drop 1).dropWhile isDigitChar)
      else
        if t.takeWhile isDigitChar = [] then none
        else some (c :: t.takeWhile isDigitChar, t.dropWhile isDigitChar)
    else some ([], c :: t)

/-- Unsigned number token. -/
def parseNumMag (cs : List Char) : Option (List Char × List Char) :=
  match parseIntDigits cs with
  | none => none
  | some r1 =>
    match parseFracPart r1.2 with
    | none => none
    | some r2 =>
      match parseExpPart r2.2 with
      | none => none
      | some r3 => some (r1.1 ++ r2.1 ++ r3.1, r3.2)

/-- A JSON number token (lexeme and remainder). -/
def parseNumberTok (cs : List Char) : Option (List Char × List Char) :=
  match cs with
  | [] => none
  | c :: t =>
    if c = '-' then
      match parseNumMag t with
      | none => none
      | some r => some ('-' :: r.1, r.2)
    else parseNumMag (c :: t)

mutual

/-- Parse one JSON value starting at the head of `cs` (leading whitespace
already consumed).  `fuel` bounds the nesting depth; every recursive call is
preceded by consuming at least one character, so `length + 1` fuel always
suffices at top level. -/
def parseValue (fuel : Nat) (cs : List Char) : Option (Json × List Char) :=
  match fuel, cs with
  | 0, _ => none
  | _, [] => none
  | fuel + 1, c :: t =>
    if c = lbrace then
      match skipWs t with
      | [] => none
      | c2 :: r =>
        if c2 = rbrace then some (Json.jobj [], r)
        else
          match parseMembers fuel (c2 :: r) with
          | none => none
          | some m => some (Json.jobj m.1, m.2)
    else if c = '[' then
      match skipWs t with
      | [] => none
      | c2 :: r =>
        if c2 = ']' then some (Json.jarr [], r)
        else
          match parseElems fuel (c2 :: r) with
          | none => none
          | some m => some (Json.jarr m.1, m.2)
    else if c = '"' then
      match parseStringBody t with
      | none => none
      | some r => some (Json.jstr ⟨r.1⟩, r.2)
    else if c = 't' then
      if t.take 3 = ['r', 'u', 'e'] then some (Json.jbool true, t.drop 3) else none
    else if c = 'f' then
      if t.take 4 = ['a', 'l', 's', 'e'] then some (Json.jbool false, t.drop 4) else none
    else if c = 'n' then
      if t.take 3 = ['u', 'l', 'l'] then some (Json.jnull, t.drop 3) else none
    else if c = '-' || isDigitChar c then
      match parseNumberTok (c :: t) with
      | none => none
      | some r => some (Json.jnum ⟨r.1⟩, r.2)
    else none

/-- Parse a non-empty member list of a JSON object, up to and including the
closing brace. -/
def parseMembers (fuel : Nat) (cs : List Char) : Option (List (String × Json) × List Char) :=
  match fuel, cs with
  | 0, _ => none
  | _, [] => none
  | fuel + 1, c :: t =>
    if c = '"' then
      match parseStringBody t with
      | none => none
      | some k =>
        match skipWs k.2 with
        | [] => none
        | c2 :: r2 =>
          if c2 = ':' then
            match parseValue fuel (skipWs r2) with
            | none => none
            | some v =>
              match skipWs v.2 with
              | [] => none
              | c3 :: r4 =>
                if c3 = ',' then
                  match parseMembers fuel (skipWs r4) with
                  | none => none
                  | some ms => some ((⟨k.1⟩, v.1) :: ms.1, ms.2)
                else if c3 = rbrace then some ([(⟨k.1⟩, v.1)], r4)
                else none
          else none
    else none

/-- Parse a non-empty element list of a JSON array, up to and including the
closing bracket. -/
def parseElems (fuel : Nat) (cs : List Char) : Option (List Json × List Char) :=
  match fuel, cs with
  | 0, _ => none
  | fuel + 1, cs =>
    match parseValue fuel cs with
    | none => none
    | some v =>
      match skipWs v.2 with
      | [] => none
      | c2 :: r2 =>
        if c2 = ',' then
          match parseElems fuel (skipWs r2) with
          | none => none
          | some vs => some (v.1 :: vs.1, vs.2)
        else if c2 = ']' then some ([v.1], r2)
        else none

end

/-- `JSON.parse` on a character list: trim surrounding whitespace, parse one
value, require that nothing but the trimmed whitespace follows it. -/
def parseJsonList (cs : List Char) : Option Json :=
  match parseValue ((trimL cs).length + 1) (trimL cs) with
  | some r => if r.2 = [] then some r.1 else none
  | none => none

def jsonParse (s : String) : Option Json := parseJsonList s.data

/-! ### Gateway response handling -/

/-- Response handling of `analyzeImage` (gemini-client.ts 105-111) as a
function of the response text: `JSON.parse` directly, and on failure throw
with the full text appended — `sanitizeJsonResponse` is not involved here. -/
def analyzeImageParse (text : String) : Except String Json :=
  match jsonParse text with
  | some v => Except.ok v
  | none => Except.error ("Failed to parse Gemini response as JSON: " ++ text)

/-- `text.substring(0, 500)`: the first 500 characters of the text
(JavaScript counts UTF-16 code units; identical for the basic-plane text the
gateway handles). -/
def takeChars (s : String) (n : Nat) : String := ⟨s.data.take n⟩

/-- Response handling of `generateJson` (gemini-client.ts 217-230): on parse
failure sanitize once and retry; if that also fails, throw with the first 500
characters of the raw text. -/
def generateJsonParse (text : String) : Except String Json :=
  match jsonParse text with
  | some v => Except.ok v
  | none =>
    match jsonParse (sanitizeJsonResponse text) with
    | some v => Except.ok v
    | none =>
      Except.error ("Failed to parse Gemini response as JSON: " ++ takeChars text 500 ++ "...")

/-! ## Concrete fixtures used by witnesses, counterexamples and the concrete
halves of the claims' scenarios. -/

/-- 23 pending questions (all with a correct choice and no explanation). -/
def paper23 : PaperData :=
  ⟨"P", "S", none, none,
    (List.range 23).map (fun i => ⟨"Q", ["a", "b"], some 0, (i : Int), none⟩), none⟩

/-- A gateway oracle whose every call succeeds. -/
def oracleOk : Nat → Except String (String × Nat) := fun _ => Except.ok ("E", 7)

/-- 5 pending questions. -/
def paper5 : PaperData :=
  ⟨"P", "S", none, none,
    (List.range 5).map (fun i => ⟨"Q", ["a", "b"], some 0, (i : Int), none⟩), none⟩

/-- A gateway oracle that throws exactly on the third pending question
(0-based index 2). -/
def oracle5 : Nat → Except String (String × Nat) :=
  fun i => if i = 2 then Except.error "boom" else Except.ok ("E", 7)

/-- The fields of a question other than its explanation. -/
def questionCore (q : Question) : String × List String × Option Int × Int :=
  (q.questionText, q.choices, q.correctChoice, q.orderIndex)

/-- A rasterizer that yields one image for every page. -/
def ras3 : Nat → List PageImage := fun p => [⟨p, "", "image/png"⟩]

/-- A gateway oracle for a 3-page range: page 1 yields 2 questions, page 2
yields 0, page 3 yields 1. -/
def oracle3 : PageImage → Except String (List RawQuestion × TokenUsage) :=
  fun img =>
    if img.pageNumber = 1 then
      Except.ok ([⟨"Q1", ["a", "b"], some 0⟩, ⟨"Q2", ["c", "d"], some 1⟩], zeroUsage)
    else if img.pageNumber = 3 then Except.ok ([⟨"Q3", ["e", "f"], none⟩], zeroUsage)
    else Except.ok ([], zeroUsage)

/-- The paper extraction result of running `oracle3` / `ras3` over pages
1-3: three questions, renumbered 1, 2, 3, in page order. -/
def paperRes3 : PaperExtractionResult :=
  ⟨[⟨"Q1", ["a", "b"], some 0, 1, some 1⟩,
    ⟨"Q2", ["c", "d"], some 1, 1, some 2⟩,
    ⟨"Q3", ["e", "f"], none, 3, some 3⟩], zeroUsage, 3⟩

/-- A rasterizer for which page 1 yields no image. -/
def rasSkip : Nat → List PageImage :=
  fun p => if p = 1 then [] else [⟨p, "", "image/png"⟩]

/-- A gateway oracle that succeeds with an empty question list on every
page. -/
def oracleEmpty : PageImage → Except String (List RawQuestion × TokenUsage) :=
  fun _ => Except.ok ([], zeroUsage)

/-- A well-formed per-page response wrapped in a markdown fence — not valid
JSON as-is, but repairable by `sanitizeJsonResponse`. -/
def fencedResponse : String := "```json\n\x7b\"questions\": []\x7d\n```"

/-- A plain string character: printable (not a raw control character), not a
double quote and not a backslash — such characters pass both the repair
engine's scan and the JSON string lexer through unchanged. -/
def plainChar (c : Char) : Bool :=
  decide (32 ≤ c.toNat) && !(c == '"') && !(c == '\\')

/-- A model response consisting of a JSON object with one string field whose
value holds an embedded literal newline (between `l1` and `l2`), the whole
object wrapped in a ```` ```json ```` code fence. -/
def fenceWrap (n l1 l2 : List Char) : List Char :=
  "```json\n\x7b\"".data ++ n ++ "\": \"".data ++ l1 ++ '\n' :: l2 ++ "\"\x7d\n```".data

/-- Valid JSON whose first string field ends in an escaped backslash and
which contains a raw newline between two tokens: the text
`{"a":"x\\",` newline `"b":1}`. -/
def slashQuoteJson : String := "\x7b\"a\":\"x\\\\\",\n\"b\":1\x7d"

/-- `cs` consists of a consumed prefix ending in the character `c`, followed
by `rest`. -/
def EndsWith (cs rest : List Char) (c : Char) : Prop :=
  ∃ pre, cs = pre ++ rest ∧ pre.getLast? = some c

/-- The characters on which a fully consumed JSON value can end: a closing
quote, brace or bracket, the last letter of `true` / `false` / `null`, or a
digit. -/
def endOkChar (c : Char) : Prop :=
  c = '"' ∨ c = rbrace ∨ c = ']' ∨ c = 'e' ∨ c = 'l' ∨ isDigitChar c = true

/-! ## Theorems -/

/-! ### Checkpoint cadence of the backfill driver -/

theorem succ_div_eq (p b : Nat) :
    (p + 1) / b = p / b + if (p + 1) % b = 0 then 1 else 0 := by
  rw [Nat.succ_div]
  simp [Nat.dvd_iff_mod_eq_zero]

theorem backfillStep_cp (b : Nat) (o : Nat → Except String (String × Nat))
    (s : BackfillState) (a : Nat) :
    (backfillStep b o s a).checkpoints.length + s.processed / b
      = s.checkpoints.length + (backfillStep b o s a).processed / b := by
  unfold backfillStep
  cases o a with
  | error e => simp
  | ok r =>
    simp only
    rw [succ_div_eq s.processed b]
    by_cases h : (s.processed + 1) % b = 0
    all_goals simp [h]
    all_goals omega

theorem backfill_foldl_cp (l : List Nat) (b : Nat)
    (o : Nat → Except String (String × Nat)) (s : BackfillState) :
    (l.foldl (backfillStep b o) s).checkpoints.length + s.processed / b
      = s.checkpoints.length + (l.foldl (backfillStep b o) s).processed / b := by
  induction l generalizing s with
  | nil => simp
  | cons a l ih =>
    simp only [List.foldl_cons]
    have h1 := ih (backfillStep b o s a)
    have h2 := backfillStep_cp b o s a
    omega

/-- C3: checkpoint cadence of the backfill driver.  In every run, the number
of checkpoint writes is one per exact multiple of `batchSize` reached by the
success counter (`processed / batchSize` many) plus the unconditional final
write, and the last write is the final state of the paper data.  Concretely,
with `batchSize = 10` and 23 pending questions all succeeding there are
exactly 3 writes, whose snapshots carry explanations for the first 10, the
first 20, and all 23 questions respectively — i.e. they happen after the
10th, 20th and 23rd successes. -/
theorem backfill_checkpoint_cadence :
    (∀ (b : Nat) (o : Nat → Except String (String × Nat)) (sk : Bool) (d : PaperData),
        (backfillRun b o sk d).checkpoints.length = (backfillRun b o sk d).processed / b + 1
        ∧ (backfillRun b o sk d).checkpoints.getLast? = some (backfillRun b o sk d).data)
    ∧ (backfillRun 10 oracleOk false paper23).processed = 23
    ∧ (backfillRun 10 oracleOk false paper23).checkpoints.length = 3
    ∧ (backfillRun 10 oracleOk false paper23).checkpoints.map
          (fun p => p.questions.map (fun q => truthyStr q.explanation))
        = [List.replicate 10 true ++ List.replicate 13 false,
           List.replicate 20 true ++ List.replicate 3 false,
           List.replicate 23 true] := by
  refine ⟨fun b o sk d => ?_, by decide, by decide, by decide⟩
  unfold backfillRun
  constructor
  · have h := backfill_foldl_cp (questionsToProcess sk d.questions) b o (backfillInit d)
    have h0 : (backfillInit d).processed = 0 := rfl
    have h1 : (backfillInit d).checkpoints = [] := rfl
    rw [h0, h1] at h
    simp only [List.length_append, List.length_singleton, List.length_nil,
      Nat.zero_div, Nat.add_zero, Nat.zero_add] at h ⊢
    omega
  · simp [List.getLast?_concat]

/-! ### The pending set of the backfill driver -/

theorem questionsToProcessAux_eq (sk : Bool) (qs : List Question) (i : Nat) :
    questionsToProcessAux sk qs i
      = ((List.enumFrom i qs).filter
          (fun p => !(sk && truthyStr p.2.explanation) && p.2.correctChoice.isSome)).map
          Prod.fst := by
  induction qs generalizing i with
  | nil => simp [questionsToProcessAux]
  | cons q rest ih =>
    simp only [questionsToProcessAux, List.enumFrom_cons, List.filter_cons]
    by_cases h1 : (sk && truthyStr q.explanation) = true
    · simp [h1, ih]
    · by_cases h2 : q.correctChoice = none
      · simp [h1, h2, ih]
      · have h3 : q.correctChoice.isSome = true := Option.isSome_iff_ne_none.mpr h2
        simp [h1, h2, h3, ih]

theorem backfillStep_calls (b : Nat) (o : Nat → Except String (String × Nat))
    (s : BackfillState) (a : Nat) :
    (backfillStep b o s a).calls = s.calls ++ [a] := by
  unfold backfillStep
  cases o a
  all_goals simp

theorem backfill_foldl_calls (l : List Nat) (b : Nat)
    (o : Nat → Except String (String × Nat)) (s : BackfillState) :
    (l.foldl (backfillStep b o) s).calls = s.calls ++ l := by
  induction l generalizing s with
  | nil => simp
  | cons a l ih =>
    simp only [List.foldl_cons]
    rw [ih, backfillStep_calls]
    simp

/-- C8: the pending set of a backfill run.  Iterating all questions in
original order, a question is pending exactly when it is not skipped by
`skipExisting` (set and a truthy explanation already present) and its
`correctChoice` is not null; the model is called exactly on the pending
indices, and every index the model is ever called on has a non-null
`correctChoice` — so a question with `correctChoice: null` is never sent to
the model, regardless of `skipExisting`. -/
theorem backfill_pending_set :
    (∀ (sk : Bool) (qs : List Question),
        questionsToProcess sk qs
          = ((qs.enum).filter
              (fun p => !(sk && truthyStr p.2.explanation) && p.2.correctChoice.isSome)).map
              Prod.fst)
    ∧ (∀ (b : Nat) (o : Nat → Except String (String × Nat)) (sk : Bool) (d : PaperData),
        (backfillRun b o sk d).calls = questionsToProcess sk d.questions)
    ∧ (∀ (sk : Bool) (qs : List Question) (i : Nat), i ∈ questionsToProcess sk qs →
        ∃ q, qs.get? i = some q ∧ q.correctChoice ≠ none) := by
  refine ⟨fun sk qs => questionsToProcessAux_eq sk qs 0, fun b o sk d => ?_, fun sk qs i hi => ?_⟩
  · simp only [backfillRun]
    rw [backfill_foldl_calls]
    rfl
  · unfold questionsToProcess at hi
    rw [questionsToProcessAux_eq sk qs 0] at hi
    have henum : List.enumFrom 0 qs = qs.enum := rfl
    rw [henum] at hi
    rcases List.mem_map.mp hi with ⟨p, hp, hfst⟩
    rcases List.mem_filter.mp hp with ⟨hmem, hpred⟩
    have hmem' : qs.get? p.1 = some p.2 := by
      rw [List.get?_eq_getElem?]
      exact List.mem_enum_iff_getElem?.mp hmem
    refine ⟨p.2, by rw [← hfst]; exact hmem', ?_⟩
    intro hnone
    simp [hnone] at hpred

theorem backfill_pending_set_witness :
    (0 ∈ questionsToProcess false paper5.questions)
    ∧ ∃ q, paper5.questions.get? 0 = some q ∧ q.correctChoice ≠ none :=
  ⟨by decide, backfill_pending_set.2.2 false paper5.questions 0 (by decide)⟩

/-! ### Frame property of the backfill driver -/

theorem updateExplanation_length (qs : List Question) (idx : Nat) (e : String) :
    (updateExplanation qs idx e).length = qs.length := by
  induction qs generalizing idx with
  | nil => rfl
  | cons q rest ih =>
    cases idx with
    | zero => rfl
    | succ n => simp [updateExplanation, ih]

theorem updateExplanation_get? (qs : List Question) (idx : Nat) (e : String) (i : Nat) :
    (updateExplanation qs idx e).get? i
      = if i = idx then (qs.get? i).map (fun q => { q with explanation := some e })
        else qs.get? i := by
  induction qs generalizing idx i with
  | nil => simp [updateExplanation]
  | cons q rest ih =>
    cases idx with
    | zero =>
      cases i with
      | zero => simp [updateExplanation]
      | succ j => simp [updateExplanation]
    | succ n =>
      cases i with
      | zero => simp [updateExplanation]
      | succ j =>
        simp only [updateExplanation, List.get?_cons_succ]
        rw [ih]
        by_cases h : j = n
        · simp [h]
        · have h2 : ¬(j + 1 = n + 1) := fun hh => h (Nat.succ_injective hh)
          simp [h, h2]

theorem backfillStep_data_fields (b : Nat) (o : Nat → Except String (String × Nat))
    (s : BackfillState) (a : Nat) :
    (backfillStep b o s a).data.name = s.data.name
    ∧ (backfillStep b o s a).data.source = s.data.source
    ∧ (backfillStep b o s a).data.startPage = s.data.startPage
    ∧ (backfillStep b o s a).data.endPage = s.data.endPage
    ∧ (backfillStep b o s a).data.stats = s.data.stats := by
  unfold backfillStep
  cases o a
  all_goals simp

theorem backfill_foldl_data_fields (l : List Nat) (b : Nat)
    (o : Nat → Except String (String × Nat)) (s : BackfillState) :
    (l.foldl (backfillStep b o) s).data.name = s.data.name
    ∧ (l.foldl (backfillStep b o) s).data.source = s.data.source
    ∧ (l.foldl (backfillStep b o) s).data.startPage = s.data.startPage
    ∧ (l.foldl (backfillStep b o) s).data.endPage = s.data.endPage
    ∧ (l.foldl (backfillStep b o) s).data.stats = s.data.stats := by
  induction l generalizing s with
  | nil => exact ⟨rfl, rfl, rfl, rfl, rfl⟩
  | cons a l ih =>
    simp only [List.foldl_cons]
    have h1 := ih (backfillStep b o s a)
    have h2 := backfillStep_data_fields b o s a
    exact ⟨h1.1.trans h2.1, h1.2.1.trans h2.2.1, h1.2.2.1.trans h2.2.2.1,
      h1.2.2.2.1.trans h2.2.2.2.1, h1.2.2.2.2.trans h2.2.2.2.2⟩

theorem backfillStep_questions_core (b : Nat) (o : Nat → Except String (String × Nat))
    (s : BackfillState) (a : Nat) (i : Nat) :
    ((backfillStep b o s a).data.questions.get? i).map questionCore
      = (s.data.questions.get? i).map questionCore := by
  unfold backfillStep
  cases o a with
  | error e => simp
  | ok r =>
    simp only
    rw [updateExplanation_get?]
    by_cases h : i = a
    · simp only [h, if_pos rfl]
      cases s.data.questions.get? a
      all_goals simp [questionCore]
    · simp [h]

theorem backfill_foldl_questions_core (l : List Nat) (b : Nat)
    (o : Nat → Except String (String × Nat)) (s : BackfillState) (i : Nat) :
    ((l.foldl (backfillStep b o) s).data.questions.get? i).map questionCore
      = (s.data.questions.get? i).map questionCore := by
  induction l generalizing s with
  | nil => rfl
  | cons a l ih =>
    simp only [List.foldl_cons]
    exact (ih (backfillStep b o s a)).trans (backfillStep_questions_core b o s a i)

theorem backfillStep_questions_length (b : Nat) (o : Nat → Except String (String × Nat))
    (s : BackfillState) (a : Nat) :
    (backfillStep b o s a).data.questions.length = s.data.questions.length := by
  unfold backfillStep
  cases o a with
  | error e => simp
  | ok r => simp [updateExplanation_length]

theorem backfill_foldl_questions_length (l : List Nat) (b : Nat)
    (o : Nat → Except String (String × Nat)) (s : BackfillState) :
    (l.foldl (backfillStep b o) s).data.questions.length = s.data.questions.length := by
  induction l generalizing s with
  | nil => rfl
  | cons a l ih =>
    simp only [List.foldl_cons]
    exact (ih (backfillStep b o s a)).trans (backfillStep_questions_length b o s a)

theorem backfill_foldl_explanation (l : List Nat) (b : Nat)
    (o : Nat → Except String (String × Nat)) (s : BackfillState) (i : Nat)
    (h : ∀ j ∈ l, j = i → ∃ e, o j = Except.error e) :
    ((l.foldl (backfillStep b o) s).data.questions.get? i).map Question.explanation
      = (s.data.questions.get? i).map Question.explanation := by
  induction l generalizing s with
  | nil => rfl
  | cons a l ih =>
    simp only [List.foldl_cons]
    rw [ih (backfillStep b o s a) (fun j hj => h j (List.mem_cons_of_mem a hj))]
    unfold backfillStep
    cases ho : o a with
    | error e => simp
    | ok r =>
      simp only
      rw [updateExplanation_get?]
      by_cases hi : i = a
      · rcases h a (List.mem_cons_self a l) hi.symm with ⟨e, he⟩
        rw [ho] at he
        cases he
      · simp [hi]

/-- C10: frame and per-question atomicity of a backfill run.  The run leaves
the paper's name, source, page range and stats untouched, keeps the question
list's length, never changes any question's text, choices, correct choice or
order index, and a question that is not pending — or whose generation call
throws — keeps exactly its prior explanation value. -/
theorem backfill_frame (b : Nat) (o : Nat → Except String (String × Nat))
    (sk : Bool) (d : PaperData) :
    (backfillRun b o sk d).data.name = d.name
    ∧ (backfillRun b o sk d).data.source = d.source
    ∧ (backfillRun b o sk d).data.startPage = d.startPage
    ∧ (backfillRun b o sk d).data.endPage = d.endPage
    ∧ (backfillRun b o sk d).data.stats = d.stats
    ∧ (backfillRun b o sk d).data.questions.length = d.questions.length
    ∧ (∀ i, ((backfillRun b o sk d).data.questions.get? i).map questionCore
          = (d.questions.get? i).map questionCore)
    ∧ (∀ i, (i ∉ questionsToProcess sk d.questions ∨ (∃ e, o i = Except.error e)) →
        ((backfillRun b o sk d).data.questions.get? i).map Question.explanation
          = (d.questions.get? i).map Question.explanation) := by
  have hdata : (backfillRun b o sk d).data
      = ((questionsToProcess sk d.questions).foldl (backfillStep b o) (backfillInit d)).data := rfl
  rw [hdata]
  have hfields := backfill_foldl_data_fields (questionsToProcess sk d.questions) b o (backfillInit d)
  refine ⟨hfields.1, hfields.2.1, hfields.2.2.1, hfields.2.2.2.1, hfields.2.2.2.2, ?_, ?_, ?_⟩
  · exact backfill_foldl_questions_length (questionsToProcess sk d.questions) b o (backfillInit d)
  · exact fun i => backfill_foldl_questions_core (questionsToProcess sk d.questions) b o (backfillInit d) i
  · intro i hi
    refine backfill_foldl_explanation (questionsToProcess sk d.questions) b o (backfillInit d) i ?_
    intro j hj hji
    rcases hi with hi | hi
    · exact absurd (hji ▸ hj) hi
    · exact hji ▸ hi

theorem backfill_frame_witness :
    ((backfillRun 10 oracle5 false paper5).data.questions.get? 2).map Question.explanation
      = (paper5.questions.get? 2).map Question.explanation :=
  (backfill_frame 10 oracle5 false paper5).2.2.2.2.2.2.2 2 (Or.inr ⟨"boom", rfl⟩)

/-! ### Error-model asymmetry between the two drivers -/

theorem extractLoop_error (oracle : PageImage → Except String (List RawQuestion × TokenUsage))
    (ras : Nat → List PageImage) (startPage totalPages : Nat) (pages : List Nat)
    (p : Nat) (img : PageImage) (imgs : List PageImage) (e : String)
    (hp : p ∈ pages) (hras : ras p = img :: imgs) (herr : oracle img = Except.error e) :
    ∃ e2, extractLoop oracle ras startPage totalPages pages = Except.error e2 := by
  induction pages with
  | nil => cases hp
  | cons q rest ih =>
    rcases List.mem_cons.mp hp with hq | hq
    · subst hq
      refine ⟨e, ?_⟩
      simp [extractLoop, hras, extractQuestionsFromPage, herr]
    · cases hq2 : ras q with
      | nil =>
        rcases ih hq with ⟨e2, he2⟩
        refine ⟨e2, ?_⟩
        simp [extractLoop, hq2, he2]
      | cons img2 imgs2 =>
        cases hq3 : oracle img2 with
        | error e3 =>
          refine ⟨e3, ?_⟩
          simp [extractLoop, hq2, extractQuestionsFromPage, hq3]
        | ok r =>
          rcases ih hq with ⟨e2, he2⟩
          refine ⟨e2, ?_⟩
          simp [extractLoop, hq2, extractQuestionsFromPage, hq3, he2]

/-- C1: error-model asymmetry between the two drivers.  Any gateway error
raised while extracting some page of the range aborts the whole range run
with an error (the `Except.error` result carries no partial extraction
result).  The backfill driver instead catches every per-question gateway
error: with 5 pending questions where the 3rd call throws, the run completes
with explanations written for questions 1, 2, 4 and 5, no explanation for
question 3, and an error counter equal to 1. -/
theorem error_model_asymmetry :
    (∀ (oracle : PageImage → Except String (List RawQuestion × TokenUsage))
        (ras : Nat → List PageImage) (startPage endPage p : Nat)
        (img : PageImage) (imgs : List PageImage) (e : String),
        p ∈ List.range' startPage (endPage + 1 - startPage) →
        ras p = img :: imgs →
        oracle img = Except.error e →
        ∃ e2, extractQuestionsFromPages oracle ras startPage endPage = Except.error e2)
    ∧ (backfillRun 10 oracle5 false paper5).errors = 1
    ∧ (backfillRun 10 oracle5 false paper5).data.questions.map (fun q => q.explanation)
        = [some "E", some "E", none, some "E", some "E"] := by
  refine ⟨fun oracle ras startPage endPage p img imgs e hp hras herr => ?_, by decide, by decide⟩
  rcases extractLoop_error oracle ras startPage (endPage + 1 - startPage)
      (List.range' startPage (endPage + 1 - startPage)) p img imgs e hp hras herr with ⟨e2, he2⟩
  refine ⟨e2, ?_⟩
  simp [extractQuestionsFromPages, he2]

theorem error_model_asymmetry_witness :
    (2 ∈ List.range' 1 (3 + 1 - 1)
      ∧ (fun _ : Nat => [(⟨2, "", "image/png"⟩ : PageImage)]) 2 = [⟨2, "", "image/png"⟩]
      ∧ (fun _ : PageImage => (Except.error "down" : Except String (List RawQuestion × TokenUsage)))
          ⟨2, "", "image/png"⟩ = Except.error "down")
    ∧ ∃ e2, extractQuestionsFromPages
        (fun _ => Except.error "down") (fun _ => [⟨2, "", "image/png"⟩]) 1 3 = Except.error e2 :=
  ⟨⟨by decide, rfl, rfl⟩,
    error_model_asymmetry.1 (fun _ => Except.error "down") (fun _ => [⟨2, "", "image/png"⟩])
      1 3 2 ⟨2, "", "image/png"⟩ [] "down" (by decide) rfl rfl⟩

/-! ### Extraction renumbering -/

theorem renumberFrom_length (l : List ExtractedQuestion) (i : Nat) :
    (renumberFrom l i).length = l.length := by
  induction l generalizing i with
  | nil => rfl
  | cons q rest ih => simp [renumberFrom, ih]

theorem renumberFrom_map (l : List ExtractedQuestion) (i : Nat) :
    (renumberFrom l i).map (fun q => q.questionNumber)
      = (List.range' (i + 1) l.length).map some := by
  induction l generalizing i with
  | nil => simp [renumberFrom]
  | cons q rest ih =>
    rw [List.length_cons, List.range'_succ]
    simp [renumberFrom, ih]

/-- C4: after a successful range extraction, the questions carry the
sequential numbers `1..N` in the order they were appended; for the 3-page
range where page 1 yields 2 questions, page 2 yields 0 and page 3 yields 1,
the result holds exactly 3 questions numbered 1, 2, 3 in page order. -/
theorem extraction_renumbering :
    (∀ (oracle : PageImage → Except String (List RawQuestion × TokenUsage))
        (ras : Nat → List PageImage) (startPage endPage : Nat)
        (res : PaperExtractionResult) (tr : List (Nat × Nat × Nat)),
        extractQuestionsFromPages oracle ras startPage endPage = Except.ok (res, tr) →
        res.questions.map (fun q => q.questionNumber)
          = (List.range' 1 res.questions.length).map some)
    ∧ extractQuestionsFromPages oracle3 ras3 1 3
        = Except.ok (paperRes3, [(1, 3, 2), (2, 3, 0), (3, 3, 1)]) := by
  refine ⟨fun oracle ras startPage endPage res tr hok => ?_, rfl⟩
  cases hloop : extractLoop oracle ras startPage (endPage + 1 - startPage)
      (List.range' startPage (endPage + 1 - startPage)) with
  | error e => simp [extractQuestionsFromPages, hloop] at hok
  | ok acc =>
    simp only [extractQuestionsFromPages, hloop, Except.ok.injEq, Prod.mk.injEq] at hok
    rcases hok with ⟨hres, htr⟩
    rw [← hres]
    show (renumberFrom acc.1 0).map (fun q => q.questionNumber)
      = (List.range' 1 (renumberFrom acc.1 0).length).map some
    rw [renumberFrom_length]
    exact renumberFrom_map acc.1 0

theorem extraction_renumbering_witness :
    extractQuestionsFromPages oracle3 ras3 1 3
      = Except.ok (paperRes3, [(1, 3, 2), (2, 3, 0), (3, 3, 1)])
    ∧ paperRes3.questions.map (fun q => q.questionNumber)
        = (List.range' 1 paperRes3.questions.length).map some :=
  ⟨rfl, extraction_renumbering.1 oracle3 ras3 1 3 paperRes3 [(1, 3, 2), (2, 3, 0), (3, 3, 1)] rfl⟩

/-! ### Progress callback -/

/-- C5 fails on the code as stated: when rasterizing a page yields no image,
the driver `continue`s before invoking the progress callback, so the callback
is not called for that page.  Over the 2-page range 1-2 where page 1 yields no
image, the callback fires exactly once, with first argument 2 — the value 1 is
never passed, so the first argument does not take every value of `1..N`. -/
theorem progress_callback_counterexample :
    extractQuestionsFromPages oracleEmpty rasSkip 1 2
      = Except.ok (⟨[], zeroUsage, 2⟩, [(2, 2, 0)])
    ∧ [(2, 2, 0)].map (fun t : Nat × Nat × Nat => t.1) ≠ List.range' 1 2 :=
  ⟨rfl, by decide⟩

theorem extractLoop_trace (oracle : PageImage → Except String (List RawQuestion × TokenUsage))
    (ras : Nat → List PageImage) (startPage totalPages : Nat) (pages : List Nat)
    (acc : List ExtractedQuestion × TokenUsage × List (Nat × Nat × Nat))
    (himg : ∀ p ∈ pages, ras p ≠ [])
    (hok : extractLoop oracle ras startPage totalPages pages = Except.ok acc) :
    acc.2.2.map (fun t => t.1) = pages.map (fun p => p - startPage + 1)
    ∧ ∀ t ∈ acc.2.2, t.2.1 = totalPages := by
  induction pages generalizing acc with
  | nil =>
    rw [extractLoop] at hok
    rcases hok with ⟨⟩
    exact ⟨rfl, by intro t ht; cases ht⟩
  | cons q rest ih =>
    rw [extractLoop] at hok
    cases hq : ras q with
    | nil => exact absurd hq (himg q (List.mem_cons_self q rest))
    | cons img imgs =>
      rw [hq] at hok
      cases ho : oracle img with
      | error e => simp [extractQuestionsFromPage, ho] at hok
      | ok r =>
        simp only [extractQuestionsFromPage, ho] at hok
        cases hrest : extractLoop oracle ras startPage totalPages rest with
        | error e => rw [hrest] at hok; cases hok
        | ok acc2 =>
          rw [hrest] at hok
          rcases hok with ⟨⟩
          have hrec := ih acc2 (fun p hp => himg p (List.mem_cons_of_mem q hp)) hrest
          refine ⟨?_, ?_⟩
          · simp only [List.map_cons]
            rw [hrec.1]
          · intro t ht
            rcases List.mem_cons.mp ht with ht | ht
            · rw [ht]
            · exact hrec.2 t ht

theorem range'_shift_sub (s n : Nat) :
    (List.range' s n).map (fun p => p - s + 1) = List.range' 1 n := by
  rw [List.range'_eq_map_range, List.range'_eq_map_range, List.map_map]
  refine List.map_congr_left ?_
  intro i hi
  simp only [Function.comp_apply]
  omega

/-- C5 amended: the progress callback is invoked exactly once per page whose
rasterization yields an image, with `(pages done, total pages, questions on
the page)`; in particular, over an N-page range in which every page yields an
image, its first argument takes every value `1..N` exactly once, in
increasing order, and its second argument is always N.  (As stated the claim
is false: a page that yields no image is skipped without a callback
invocation — see the counterexample.) -/
theorem progress_callback_monotone
    (oracle : PageImage → Except String (List RawQuestion × TokenUsage))
    (ras : Nat → List PageImage) (startPage endPage : Nat)
    (res : PaperExtractionResult) (tr : List (Nat × Nat × Nat))
    (himg : ∀ p ∈ List.range' startPage (endPage + 1 - startPage), ras p ≠ [])
    (hok : extractQuestionsFromPages oracle ras startPage endPage = Except.ok (res, tr)) :
    tr.map (fun t => t.1) = List.range' 1 (endPage + 1 - startPage)
    ∧ ∀ t ∈ tr, t.2.1 = endPage + 1 - startPage := by
  cases hloop : extractLoop oracle ras startPage (endPage + 1 - startPage)
      (List.range' startPage (endPage + 1 - startPage)) with
  | error e => simp [extractQuestionsFromPages, hloop] at hok
  | ok acc =>
    simp only [extractQuestionsFromPages, hloop, Except.ok.injEq, Prod.mk.injEq] at hok
    rcases hok with ⟨hres, htr⟩
    have h := extractLoop_trace oracle ras startPage (endPage + 1 - startPage)
      (List.range' startPage (endPage + 1 - startPage)) acc himg hloop
    rw [← htr]
    exact ⟨h.1.trans (range'_shift_sub startPage (endPage + 1 - startPage)), h.2⟩

theorem progress_callback_monotone_witness :
    (∀ p ∈ List.range' 1 (2 + 1 - 1), ras3 p ≠ [])
    ∧ extractQuestionsFromPages oracleEmpty ras3 1 2
        = Except.ok (⟨[], zeroUsage, 2⟩, [(1, 2, 0), (2, 2, 0)])
    ∧ [(1, 2, 0), (2, 2, 0)].map (fun t : Nat × Nat × Nat => t.1) = List.range' 1 (2 + 1 - 1) :=
  ⟨by decide, rfl,
    (progress_callback_monotone oracleEmpty ras3 1 2 ⟨[], zeroUsage, 2⟩
      [(1, 2, 0), (2, 2, 0)] (by decide) rfl).1⟩

/-! ### Gateway JSON handling: `generateJson` and `analyzeImage` -/

/-- C9: `generateJson` postcondition on malformed output.  When the response
text does not parse, the repair engine is applied once and parsing retried:
if the repaired text parses, its value is returned; if it still fails, the
call fails with an error carrying only the first 500 characters of the raw
text (never the arbitrarily large full payload). -/
theorem generateJson_malformed (text : String) (h : jsonParse text = none) :
    (∀ v, jsonParse (sanitizeJsonResponse text) = some v →
      generateJsonParse text = Except.ok v)
    ∧ (jsonParse (sanitizeJsonResponse text) = none →
        generateJsonParse text
          = Except.error ("Failed to parse Gemini response as JSON: " ++ takeChars text 500 ++ "...")
        ∧ (takeChars text 500).length ≤ 500) := by
  constructor
  · intro v hv
    simp [generateJsonParse, h, hv]
  · intro h2
    refine ⟨by simp [generateJsonParse, h, h2], ?_⟩
    show (text.data.take 500).length ≤ 500
    rw [List.length_take]
    omega

theorem generateJson_malformed_witness :
    jsonParse "not json" = none
    ∧ jsonParse (sanitizeJsonResponse "not json") = none
    ∧ generateJsonParse "not json"
        = Except.error ("Failed to parse Gemini response as JSON: "
            ++ takeChars "not json" 500 ++ "...") :=
  ⟨rfl, rfl, ((generateJson_malformed "not json" rfl).2 rfl).1⟩

/-- C6 fails on the code as stated: in the extraction data flow the per-page
call goes through `analyzeImage`, which surfaces a JSON-parse failure
directly, without ever invoking the repair engine — here is a response text
that `analyzeImageParse` rejects even though the repaired text parses. -/
theorem extraction_repair_counterexample :
    jsonParse fencedResponse = none
    ∧ jsonParse (sanitizeJsonResponse fencedResponse)
        = some (Json.jobj [("questions", Json.jarr [])])
    ∧ analyzeImageParse fencedResponse
        = Except.error ("Failed to parse Gemini response as JSON: " ++ fencedResponse) :=
  ⟨rfl, rfl, rfl⟩

/-- C6 amended: in the extraction data flow, a per-page response that fails
to parse is surfaced as an error immediately, with the full raw text and with
no repair attempt — even when the repair engine would have fixed it; the
repair-and-retry step exists only in the text-only `generateJson` path used by
the explanation backfill. -/
theorem extraction_no_repair (text : String) (v : Json)
    (h : jsonParse text = none)
    (hs : jsonParse (sanitizeJsonResponse text) = some v) :
    analyzeImageParse text
      = Except.error ("Failed to parse Gemini response as JSON: " ++ text)
    ∧ generateJsonParse text = Except.ok v := by
  constructor
  · simp [analyzeImageParse, h]
  · simp [generateJsonParse, h, hs]

theorem extraction_no_repair_witness :
    jsonParse fencedResponse = none
    ∧ jsonParse (sanitizeJsonResponse fencedResponse)
        = some (Json.jobj [("questions", Json.jarr [])])
    ∧ analyzeImageParse fencedResponse
        = Except.error ("Failed to parse Gemini response as JSON: " ++ fencedResponse)
    ∧ generateJsonParse fencedResponse = Except.ok (Json.jobj [("questions", Json.jarr [])]) :=
  ⟨rfl, rfl,
    (extraction_no_repair fencedResponse (Json.jobj [("questions", Json.jarr [])]) rfl rfl).1,
    (extraction_no_repair fencedResponse (Json.jobj [("questions", Json.jarr [])]) rfl rfl).2⟩

/-! ### The repair engine on a fenced single-field object -/

theorem dropWhile_head_false (p : Char → Bool) (cs : List Char)
    (h : ∀ c, cs.head? = some c → p c = false) : cs.dropWhile p = cs := by
  cases cs with
  | nil => rfl
  | cons a t => simp [List.dropWhile_cons, h a rfl]

theorem trimL_eq_self (cs : List Char)
    (h1 : ∀ c, cs.head? = some c → isWsChar c = false)
    (h2 : ∀ c, cs.getLast? = some c → isWsChar c = false) : trimL cs = cs := by
  unfold trimL
  rw [dropWhile_head_false isWsChar cs h1]
  rw [dropWhile_head_false isWsChar cs.reverse
    (fun c hc => h2 c (by rwa [List.head?_reverse] at hc))]
  exact List.reverse_reverse cs

theorem scanFix_prev_congr (b : Bool) (p q : Option Char) (cs : List Char)
    (h : (p = some '\\') ↔ (q = some '\\')) : scanFix b p cs = scanFix b q cs := by
  cases cs with
  | nil => rfl
  | cons c t =>
    show (if c = '"' ∧ p ≠ some '\\' then c :: scanFix (!b) (some c) t
          else if b then _ else c :: scanFix b (some c) t)
        = (if c = '"' ∧ q ≠ some '\\' then c :: scanFix (!b) (some c) t
          else if b then _ else c :: scanFix b (some c) t)
    have hiff : (c = '"' ∧ p ≠ some '\\') ↔ (c = '"' ∧ q ≠ some '\\') := by
      constructor
      · exact fun hp => ⟨hp.1, fun hq => hp.2 (h.mpr hq)⟩
      · exact fun hq => ⟨hq.1, fun hp => hq.2 (h.mp hp)⟩
    rw [if_congr hiff rfl rfl]

theorem scanFix_inside_plain (l : List Char) (t : List Char) (prev : Option Char)
    (hl : ∀ c ∈ l, plainChar c = true) (hprev : prev ≠ some '\\') :
    ∃ p2, scanFix true prev (l ++ t) = l ++ scanFix true p2 t ∧ p2 ≠ some '\\' := by
  induction l generalizing prev with
  | nil => exact ⟨prev, rfl, hprev⟩
  | cons c l ih =>
    have hc := hl c (List.mem_cons_self c l)
    have hcq : ¬(c = '"') := by
      intro hq
      rw [hq] at hc
      simp [plainChar] at hc
    have hcb : ¬(c = '\\') := by
      intro hq
      rw [hq] at hc
      simp [plainChar] at hc
    have hctrl : 32 ≤ c.toNat := by
      by_contra hlt
      simp [plainChar, hlt] at hc
    have hn : ¬(c = '\n') := by
      intro hq
      rw [hq] at hctrl
      exact absurd hctrl (by decide)
    have hr : ¬(c = '\r') := by
      intro hq
      rw [hq] at hctrl
      exact absurd hctrl (by decide)
    have ht : ¬(c = '\t') := by
      intro hq
      rw [hq] at hctrl
      exact absurd hctrl (by decide)
    rcases ih (some c) (fun x hx => hl x (List.mem_cons_of_mem c hx))
        (fun hx => hcb (Option.some_injective _ hx)) with ⟨p2, hp2, hp2b⟩
    refine ⟨p2, ?_, hp2b⟩
    show scanFix true prev (c :: (l ++ t)) = c :: (l ++ scanFix true p2 t)
    rw [scanFix]
    rw [if_neg (fun hand => hcq hand.1), if_pos rfl]
    rw [if_neg hn, if_neg hr, if_neg ht]
    simp only [List.singleton_append, List.cons.injEq, true_and]
    exact hp2


theorem plainChar_facts (c : Char) (h : plainChar c = true) :
    ¬(c = '"') ∧ ¬(c = '\\') ∧ ¬(c.toNat < 32) := by
  simp only [plainChar, Bool.and_eq_true, Bool.not_eq_true', beq_eq_false_iff_ne, ne_eq,
    decide_eq_true_eq] at h
  obtain ⟨⟨hge, hq⟩, hb⟩ := h
  exact ⟨hq, hb, by omega⟩

theorem parseStringBody_cons_plain (c : Char) (t : List Char)
    (h1 : ¬(c = '"')) (h2 : ¬(c = '\\')) (h3 : ¬(c.toNat < 32)) :
    parseStringBody (c :: t)
      = match parseStringBody t with
        | none => none
        | some r => some (c :: r.1, r.2) := by
  cases t with
  | nil => simp only [parseStringBody, if_neg h1, if_neg h2, if_neg h3]
  | cons e t2 => simp only [parseStringBody, if_neg h1, if_neg h2, if_neg h3]

theorem parseStringBody_quote (t : List Char) : parseStringBody ('"' :: t) = some ([], t) := by
  cases t with
  | nil => simp [parseStringBody]
  | cons e t2 => simp [parseStringBody]

theorem parseStringBody_esc_n (t : List Char) :
    parseStringBody ('\\' :: 'n' :: t)
      = match parseStringBody t with
        | none => none
        | some r => some ('\n' :: r.1, r.2) := by
  rw [parseStringBody]
  rw [if_neg (by decide : ¬(('\\' : Char) = '"')), if_pos rfl]
  rfl

theorem parseStringBody_plain_front (l t : List Char)
    (hl : ∀ c ∈ l, plainChar c = true) :
    parseStringBody (l ++ t)
      = (parseStringBody t).map (fun r => (l ++ r.1, r.2)) := by
  induction l with
  | nil =>
    cases ht : parseStringBody t
    all_goals simp [ht]
  | cons c l ih =>
    rcases plainChar_facts c (hl c (List.mem_cons_self c l)) with ⟨h1, h2, h3⟩
    show parseStringBody (c :: (l ++ t)) = _
    rw [parseStringBody_cons_plain c (l ++ t) h1 h2 h3]
    rw [ih (fun x hx => hl x (List.mem_cons_of_mem c hx))]
    cases ht : parseStringBody t
    all_goals simp [ht]

theorem parseStringBody_plain_close (l t : List Char)
    (hl : ∀ c ∈ l, plainChar c = true) :
    parseStringBody (l ++ '"' :: t) = some (l, t) := by
  rw [parseStringBody_plain_front l _ hl, parseStringBody_quote]
  simp

theorem parseStringBody_value (l1 l2 t : List Char)
    (h1 : ∀ c ∈ l1, plainChar c = true) (h2 : ∀ c ∈ l2, plainChar c = true) :
    parseStringBody (l1 ++ '\\' :: 'n' :: (l2 ++ '"' :: t)) = some (l1 ++ '\n' :: l2, t) := by
  rw [parseStringBody_plain_front l1 _ h1]
  rw [parseStringBody_esc_n, parseStringBody_plain_close l2 t h2]
  simp

theorem scanFix_body (n l1 l2 : List Char)
    (hn : ∀ c ∈ n, plainChar c = true) (h1 : ∀ c ∈ l1, plainChar c = true)
    (h2 : ∀ c ∈ l2, plainChar c = true) :
    scanFix false none
        (lbrace :: '"' :: (n ++ '"' :: ':' :: ' ' :: '"' :: (l1 ++ '\n' :: (l2 ++ '"' :: rbrace :: []))))
      = lbrace :: '"' :: (n ++ '"' :: ':' :: ' ' :: '"' :: (l1 ++ '\\' :: 'n' :: (l2 ++ '"' :: rbrace :: []))) := by
  have s1 : ∀ R : List Char, scanFix false none (lbrace :: '"' :: R)
      = lbrace :: '"' :: scanFix true (some '"') R := by
    intro R
    rw [scanFix, if_neg (by decide : ¬(lbrace = '"' ∧ (none : Option Char) ≠ some '\\'))]
    rw [if_neg (by decide : ¬(false = true))]
    rw [scanFix, if_pos (by decide : ('"' : Char) = '"' ∧ some lbrace ≠ some '\\')]
    rfl
  rw [s1]
  rcases scanFix_inside_plain n
      ('"' :: ':' :: ' ' :: '"' :: (l1 ++ '\n' :: (l2 ++ '"' :: rbrace :: [])))
      (some '"') hn (by decide) with ⟨p2, hp2, hp2b⟩
  rw [hp2]
  have s2 : scanFix true p2 ('"' :: ':' :: ' ' :: '"' :: (l1 ++ '\n' :: (l2 ++ '"' :: rbrace :: [])))
      = '"' :: ':' :: ' ' :: '"' :: scanFix true (some '"') (l1 ++ '\n' :: (l2 ++ '"' :: rbrace :: [])) := by
    rw [scanFix, if_pos ⟨rfl, hp2b⟩]
    simp only [Bool.not_true]
    rw [scanFix, if_neg (by decide : ¬((':' : Char) = '"' ∧ some '"' ≠ some '\\'))]
    rw [if_neg (by decide : ¬(false = true))]
    rw [scanFix, if_neg (by decide : ¬((' ' : Char) = '"' ∧ some ':' ≠ some '\\'))]
    rw [if_neg (by decide : ¬(false = true))]
    rw [scanFix, if_pos (by decide : ('"' : Char) = '"' ∧ some ' ' ≠ some '\\')]
    rfl
  rw [s2]
  rcases scanFix_inside_plain l1 ('\n' :: (l2 ++ '"' :: rbrace :: [])) (some '"') h1 (by decide)
    with ⟨p3, hp3, hp3b⟩
  rw [hp3]
  have s3 : scanFix true p3 ('\n' :: (l2 ++ '"' :: rbrace :: []))
      = '\\' :: 'n' :: scanFix true (some '\n') (l2 ++ '"' :: rbrace :: []) := by
    rw [scanFix, if_neg (fun hand => absurd hand.1 (by decide))]
    rfl
  rw [s3]
  rcases scanFix_inside_plain l2 ('"' :: rbrace :: []) (some '\n') h2 (by decide)
    with ⟨p4, hp4, hp4b⟩
  rw [hp4]
  have s4 : scanFix true p4 ('"' :: rbrace :: []) = '"' :: rbrace :: [] := by
    rw [scanFix, if_pos ⟨rfl, hp4b⟩]
    rfl
  rw [s4]

theorem fenceWrap_eq (n l1 l2 : List Char) :
    fenceWrap n l1 l2
      = Char.ofNat 96 :: Char.ofNat 96 :: Char.ofNat 96 :: 'j' :: 's' :: 'o' :: 'n' :: '\n' ::
          lbrace :: '"' ::
          (n ++ '"' :: ':' :: ' ' :: '"' ::
            (l1 ++ '\n' ::
              (l2 ++ '"' :: rbrace :: '\n' :: Char.ofNat 96 :: Char.ofNat 96 :: Char.ofNat 96 :: []))) := by
  have hA : "```json\n\x7b\"".data
      = [Char.ofNat 96, Char.ofNat 96, Char.ofNat 96, 'j', 's', 'o', 'n', '\n', lbrace, '"'] := rfl
  have hB : "\": \"".data = ['"', ':', ' ', '"'] := rfl
  have hC : "\"\x7d\n```".data
      = ['"', rbrace, '\n', Char.ofNat 96, Char.ofNat 96, Char.ofNat 96] := rfl
  show "```json\n\x7b\"".data ++ n ++ "\": \"".data ++ l1 ++ '\n' :: l2 ++ "\"\x7d\n```".data = _
  rw [hA, hB, hC]
  simp [List.append_assoc]

theorem trim_fenceWrap (n l1 l2 : List Char) :
    trimL (fenceWrap n l1 l2) = fenceWrap n l1 l2 := by
  refine trimL_eq_self _ ?_ ?_
  · intro c hc
    rw [fenceWrap_eq] at hc
    simp only [List.head?_cons, Option.some.injEq] at hc
    rw [← hc]
    decide
  · intro c hc
    rw [fenceWrap_eq, ← List.head?_reverse] at hc
    simp only [List.reverse_cons, List.reverse_append, List.append_assoc] at hc
    simp at hc
    rw [← hc]
    decide


theorem stripFront_fenceWrap (n l1 l2 : List Char) :
    stripFront (fenceWrap n l1 l2)
      = '\n' :: lbrace :: '"' ::
          (n ++ '"' :: ':' :: ' ' :: '"' ::
            (l1 ++ '\n' ::
              (l2 ++ '"' :: rbrace :: '\n' :: Char.ofNat 96 :: Char.ofNat 96 :: Char.ofNat 96 :: []))) := by
  rw [fenceWrap_eq, stripFront]
  split
  · rfl
  · next h => exact absurd rfl h

theorem stripEnd_split (Y : List Char) :
    stripEnd (Y ++ [Char.ofNat 96, Char.ofNat 96, Char.ofNat 96]) = Y := by
  rw [stripEnd]
  have hlen : (Y ++ [Char.ofNat 96, Char.ofNat 96, Char.ofNat 96]).length = Y.length + 3 := by
    simp
  have hc : 3 ≤ (Y ++ [Char.ofNat 96, Char.ofNat 96, Char.ofNat 96]).length
      ∧ (Y ++ [Char.ofNat 96, Char.ofNat 96, Char.ofNat 96]).drop
          ((Y ++ [Char.ofNat 96, Char.ofNat 96, Char.ofNat 96]).length - 3) = "```".data := by
    constructor
    · rw [hlen]; omega
    · rw [hlen]
      simp only [Nat.add_sub_cancel]
      rw [List.drop_left]
  rw [if_pos hc, hlen]
  simp only [Nat.add_sub_cancel]
  rw [List.take_left]

theorem dropWhile_cons_not (p : Char → Bool) (a : Char) (t : List Char) (h : p a = false) :
    List.dropWhile p (a :: t) = a :: t := by
  simp [List.dropWhile_cons, h]


theorem trimL_wrap (a b : Char) (A : List Char)
    (ha : isWsChar a = true) (hb : isWsChar b = true)
    (h1 : ∀ c, A.head? = some c → isWsChar c = false)
    (h2 : ∀ c, A.getLast? = some c → isWsChar c = false) :
    trimL (a :: (A ++ [b])) = A := by
  unfold trimL
  rw [show List.dropWhile isWsChar (a :: (A ++ [b])) = List.dropWhile isWsChar (A ++ [b]) by
    simp [List.dropWhile_cons, ha]]
  cases A with
  | nil => simp [List.dropWhile_cons, hb]
  | cons x A2 =>
    have hx : isWsChar x = false := h1 x rfl
    rw [show x :: A2 ++ [b] = (x :: A2) ++ [b] from rfl]
    rw [show List.dropWhile isWsChar ((x :: A2) ++ [b]) = (x :: A2) ++ [b] by
      rw [List.cons_append]
      exact dropWhile_cons_not isWsChar x (A2 ++ [b]) hx]
    rw [List.reverse_append]
    rw [show ([b].reverse ++ (x :: A2).reverse) = b :: (x :: A2).reverse by simp]
    rw [show List.dropWhile isWsChar (b :: (x :: A2).reverse)
        = List.dropWhile isWsChar ((x :: A2).reverse) by simp [List.dropWhile_cons, hb]]
    rw [dropWhile_head_false isWsChar (x :: A2).reverse
      (fun c hc => h2 c (by rwa [List.head?_reverse] at hc))]
    exact List.reverse_reverse (x :: A2)

theorem sanitize_fenceWrap (n l1 l2 : List Char)
    (hn : ∀ c ∈ n, plainChar c = true) (h1 : ∀ c ∈ l1, plainChar c = true)
    (h2 : ∀ c ∈ l2, plainChar c = true) :
    sanitizeList (fenceWrap n l1 l2)
      = lbrace :: '"' ::
          (n ++ '"' :: ':' :: ' ' :: '"' :: (l1 ++ '\\' :: 'n' :: (l2 ++ '"' :: rbrace :: []))) := by
  unfold sanitizeList stripFences
  rw [trim_fenceWrap, stripFront_fenceWrap]
  rw [show '\n' :: lbrace :: '"' ::
        (n ++ '"' :: ':' :: ' ' :: '"' ::
          (l1 ++ '\n' ::
            (l2 ++ '"' :: rbrace :: '\n' :: Char.ofNat 96 :: Char.ofNat 96 :: Char.ofNat 96 :: [])))
      = ('\n' :: lbrace :: '"' ::
          (n ++ '"' :: ':' :: ' ' :: '"' :: (l1 ++ '\n' :: (l2 ++ '"' :: rbrace :: '\n' :: []))))
        ++ [Char.ofNat 96, Char.ofNat 96, Char.ofNat 96] by simp [List.append_assoc]]
  rw [stripEnd_split]
  rw [show '\n' :: lbrace :: '"' ::
        (n ++ '"' :: ':' :: ' ' :: '"' :: (l1 ++ '\n' :: (l2 ++ '"' :: rbrace :: '\n' :: [])))
      = '\n' :: ((lbrace :: '"' ::
          (n ++ '"' :: ':' :: ' ' :: '"' :: (l1 ++ '\n' :: (l2 ++ '"' :: rbrace :: [])))) ++ ['\n'])
      by simp [List.append_assoc]]
  rw [trimL_wrap '\n' '\n' _ (by decide) (by decide) ?_ ?_]
  · exact scanFix_body n l1 l2 hn h1 h2
  · intro c hc
    simp only [List.head?_cons, Option.some.injEq] at hc
    rw [← hc]
    decide
  · intro c hc
    rw [← List.head?_reverse] at hc
    simp [List.reverse_append] at hc
    rw [← hc]
    decide


theorem parseValue_str (f : Nat) (S : List Char) (r : List Char × List Char)
    (hS : parseStringBody S = some r) :
    parseValue (f + 1) ('"' :: S) = some (Json.jstr ⟨r.1⟩, r.2) := by
  rw [parseValue]
  rw [if_neg (by decide : ¬(('"' : Char) = lbrace))]
  rw [if_neg (by decide : ¬(('"' : Char) = '['))]
  rw [if_pos rfl]
  rw [hS]

theorem parseValue_obj_step (f : Nat) (n S : List Char) :
    parseValue (f + 3) (lbrace :: '"' :: (n ++ '"' :: ':' :: ' ' :: '"' :: S))
      = match parseMembers (f + 2) ('"' :: (n ++ '"' :: ':' :: ' ' :: '"' :: S)) with
        | none => none
        | some m => some (Json.jobj m.1, m.2) := by
  show parseValue ((f + 2) + 1) _ = _
  rw [parseValue, if_pos rfl]
  rfl

theorem parseMembers_key_step (f : Nat) (n S : List Char)
    (hn : ∀ c ∈ n, plainChar c = true) :
    parseMembers (f + 2) ('"' :: (n ++ '"' :: ':' :: ' ' :: '"' :: S))
      = match parseValue (f + 1) ('"' :: S) with
        | none => none
        | some v =>
          match skipWs v.2 with
          | [] => none
          | c3 :: r4 =>
            if c3 = ',' then
              match parseMembers (f + 1) (skipWs r4) with
              | none => none
              | some ms => some ((⟨n⟩, v.1) :: ms.1, ms.2)
            else if c3 = rbrace then some ([(⟨n⟩, v.1)], r4)
            else none := by
  show parseMembers ((f + 1) + 1) _ = _
  rw [parseMembers, if_pos rfl, parseStringBody_plain_close n _ hn]
  rfl

theorem parseValue_obj_single (f : Nat) (n S dec : List Char)
    (hn : ∀ c ∈ n, plainChar c = true)
    (hS : parseStringBody S = some (dec, rbrace :: [])) :
    parseValue (f + 3) (lbrace :: '"' :: (n ++ '"' :: ':' :: ' ' :: '"' :: S))
      = some (Json.jobj [(⟨n⟩, Json.jstr ⟨dec⟩)], []) := by
  rw [parseValue_obj_step, parseMembers_key_step f n S hn,
    parseValue_str (f) S (dec, rbrace :: []) hS]
  rfl

theorem trim_scanned (n l1 l2 : List Char) :
    trimL (lbrace :: '"' ::
        (n ++ '"' :: ':' :: ' ' :: '"' :: (l1 ++ '\\' :: 'n' :: (l2 ++ '"' :: rbrace :: []))))
      = lbrace :: '"' ::
          (n ++ '"' :: ':' :: ' ' :: '"' :: (l1 ++ '\\' :: 'n' :: (l2 ++ '"' :: rbrace :: []))) := by
  refine trimL_eq_self _ ?_ ?_
  · intro c hc
    simp only [List.head?_cons, Option.some.injEq] at hc
    rw [← hc]
    decide
  · intro c hc
    rw [← List.head?_reverse] at hc
    simp [List.reverse_append] at hc
    rw [← hc]
    decide

/-- C2: repair round-trip.  For a model response consisting of a JSON object
with one string field whose value contains an embedded literal newline,
wrapped in a ```` ```json ```` code fence (`fenceWrap n l1 l2`, with plain
field name and plain line contents), applying `sanitizeJsonResponse` and then
`JSON.parse` succeeds, and the parsed field's value is the original content
with the newline preserved as an actual newline character. -/
theorem repair_round_trip (n l1 l2 : List Char)
    (hn : ∀ c ∈ n, plainChar c = true) (h1 : ∀ c ∈ l1, plainChar c = true)
    (h2 : ∀ c ∈ l2, plainChar c = true) :
    jsonParse (sanitizeJsonResponse ⟨fenceWrap n l1 l2⟩)
      = some (Json.jobj [(⟨n⟩, Json.jstr ⟨l1 ++ '\n' :: l2⟩)]) := by
  have hsan : sanitizeJsonResponse ⟨fenceWrap n l1 l2⟩
      = ⟨lbrace :: '"' ::
          (n ++ '"' :: ':' :: ' ' :: '"' :: (l1 ++ '\\' :: 'n' :: (l2 ++ '"' :: rbrace :: [])))⟩ := by
    show (⟨sanitizeList (fenceWrap n l1 l2)⟩ : String) = _
    rw [sanitize_fenceWrap n l1 l2 hn h1 h2]
  rw [hsan]
  show parseJsonList (lbrace :: '"' ::
      (n ++ '"' :: ':' :: ' ' :: '"' :: (l1 ++ '\\' :: 'n' :: (l2 ++ '"' :: rbrace :: [])))) = _
  rw [parseJsonList]
  rw [trim_scanned n l1 l2]
  have hf : (lbrace :: '"' ::
        (n ++ '"' :: ':' :: ' ' :: '"' :: (l1 ++ '\\' :: 'n' :: (l2 ++ '"' :: rbrace :: [])))).length + 1
      = (n.length + l1.length + l2.length + 8) + 3 := by
    simp only [List.length_cons, List.length_append, List.length_nil]
    omega
  rw [hf]
  rw [parseValue_obj_single (n.length + l1.length + l2.length + 8) n
    (l1 ++ '\\' :: 'n' :: (l2 ++ '"' :: rbrace :: [])) (l1 ++ '\n' :: l2) hn
    (parseStringBody_value l1 l2 (rbrace :: []) h1 h2)]
  rfl

theorem repair_round_trip_witness :
    (∀ c ∈ "answer".data, plainChar c = true)
    ∧ (∀ c ∈ "line one".data, plainChar c = true)
    ∧ (∀ c ∈ "line two".data, plainChar c = true)
    ∧ jsonParse (sanitizeJsonResponse ⟨fenceWrap "answer".data "line one".data "line two".data⟩)
        = some (Json.jobj
            [(⟨"answer".data⟩, Json.jstr ⟨"line one".data ++ '\n' :: "line two".data⟩)]) :=
  ⟨by decide, by decide, by decide,
    repair_round_trip "answer".data "line one".data "line two".data
      (by decide) (by decide) (by decide)⟩

/-! ### Idempotence of the repair engine on valid JSON -/

/-- C7 fails on the code as stated: `slashQuoteJson` is valid JSON with no
raw newline inside any string literal (its one raw newline separates two
members), yet repairing it breaks it.  The scan's quote toggle sees the
escaped backslash before the first field's closing quote, stays "inside a
string", and rewrites the inter-token newline to a literal `\n` escape,
producing text that no longer parses. -/
theorem repair_idempotent_counterexample :
    jsonParse slashQuoteJson
      = some (Json.jobj [("a", Json.jstr "x\\"), ("b", Json.jnum "1")])
    ∧ jsonParse (sanitizeJsonResponse slashQuoteJson) = none :=
  ⟨rfl, rfl⟩

theorem EndsWith.pre_ne_nil {pre : List Char} {c : Char} (h : pre.getLast? = some c) :
    pre ≠ [] := by
  intro he
  rw [he] at h
  cases h

theorem EndsWith.single (c : Char) (rest : List Char) : EndsWith (c :: rest) rest c :=
  ⟨[c], rfl, rfl⟩

theorem EndsWith.cons (a : Char) {cs rest : List Char} {c : Char}
    (h : EndsWith cs rest c) : EndsWith (a :: cs) rest c := by
  rcases h with ⟨pre, hpre, hlast⟩
  refine ⟨a :: pre, by rw [hpre]; rfl, ?_⟩
  rw [List.getLast?_cons, ← hlast]
  cases pre with
  | nil => cases hlast
  | cons x xs => simp [List.getLastD_eq_getLast?, List.getLast?_cons]

theorem EndsWith.append (P : List Char) {cs rest : List Char} {c : Char}
    (h : EndsWith cs rest c) : EndsWith (P ++ cs) rest c := by
  rcases h with ⟨pre, hpre, hlast⟩
  refine ⟨P ++ pre, by rw [hpre, List.append_assoc], ?_⟩
  rw [List.getLast?_append]
  simp [hlast]

theorem EndsWith.ofSkipWs {t rest : List Char} {c : Char}
    (h : EndsWith (skipWs t) rest c) : EndsWith t rest c := by
  have h2 := EndsWith.append (t.takeWhile isWsChar) h
  rw [skipWs] at h2
  rwa [List.takeWhile_append_dropWhile] at h2

theorem EndsWith.trans {cs mid rest : List Char} {b c : Char}
    (h1 : EndsWith cs mid b) (h2 : EndsWith mid rest c) : EndsWith cs rest c := by
  rcases h1 with ⟨p1, hp1, hl1⟩
  rcases h2 with ⟨p2, hp2, hl2⟩
  refine ⟨p1 ++ p2, by rw [hp1, hp2, List.append_assoc], ?_⟩
  rw [List.getLast?_append]
  simp [hl2]

theorem parseStringBody_spine_aux (N : Nat) : ∀ (cs : List Char), cs.length ≤ N →
    ∀ content rest, parseStringBody cs = some (content, rest) → EndsWith cs rest '"' := by
  induction N with
  | zero =>
    intro cs hlen content rest h
    cases cs with
    | nil => simp [parseStringBody] at h
    | cons c t => simp at hlen
  | succ n ih =>
    intro cs hlen content rest h
    cases cs with
    | nil => simp [parseStringBody] at h
    | cons c t =>
      by_cases hq : c = '"'
      · subst hq
        rw [parseStringBody_quote] at h
        simp only [Option.some.injEq, Prod.mk.injEq] at h
        rw [← h.2]
        exact EndsWith.single '"' t
      · by_cases hb : c = '\\'
        · subst hb
          cases t with
          | nil => simp [parseStringBody] at h
          | cons e rest1 =>
            rw [parseStringBody] at h
            rw [if_neg (by decide : ¬(('\\' : Char) = '"')), if_pos rfl] at h
            cases hesc : escapeChar e with
            | none => rw [hesc] at h; simp at h
            | some ec =>
              rw [hesc] at h
              cases hrec : parseStringBody rest1 with
              | none => rw [hrec] at h; simp at h
              | some r =>
                rw [hrec] at h
                simp only [Option.some.injEq, Prod.mk.injEq] at h
                have hlen2 : rest1.length ≤ n := by
                  simp only [List.length_cons] at hlen
                  omega
                have hrec2 := ih rest1 hlen2 r.1 r.2 (by rw [hrec])
                rw [← h.2]
                exact EndsWith.cons '\\' (EndsWith.cons e hrec2)
        · by_cases hctl : c.toNat < 32
          · cases t with
            | nil => simp [parseStringBody, hq, hb, hctl] at h
            | cons e t2 => simp [parseStringBody, hq, hb, hctl] at h
          · rw [parseStringBody_cons_plain c t hq hb hctl] at h
            cases hrec : parseStringBody t with
            | none => rw [hrec] at h; simp at h
            | some r =>
              rw [hrec] at h
              simp only [Option.some.injEq, Prod.mk.injEq] at h
              have hlen2 : t.length ≤ n := by
                simp only [List.length_cons] at hlen
                omega
              have hrec2 := ih t hlen2 r.1 r.2 (by rw [hrec])
              rw [← h.2]
              exact EndsWith.cons c hrec2

theorem parseStringBody_spine (cs content rest : List Char)
    (h : parseStringBody cs = some (content, rest)) : EndsWith cs rest '"' :=
  parseStringBody_spine_aux cs.length cs le_rfl content rest h

theorem endsWith_digit_tail (c : Char) (t : List Char)
    (hne : t.takeWhile isDigitChar ≠ []) :
    ∃ d, isDigitChar d = true ∧ EndsWith (c :: t) (t.dropWhile isDigitChar) d := by
  cases htw : t.takeWhile isDigitChar with
  | nil => exact absurd htw hne
  | cons x xs =>
    have hnexs : x :: xs ≠ ([] : List Char) := by simp
    refine ⟨(x :: xs).getLast hnexs, ?_, ⟨c :: x :: xs, ?_, ?_⟩⟩
    · have hmem : (x :: xs).getLast hnexs ∈ t.takeWhile isDigitChar := by
        rw [htw]
        exact List.getLast_mem hnexs
      exact List.mem_takeWhile_imp hmem
    · have hsplit : t = t.takeWhile isDigitChar ++ t.dropWhile isDigitChar :=
        (List.takeWhile_append_dropWhile isDigitChar t).symm
      rw [htw] at hsplit
      nth_rewrite 1 [hsplit]
      rfl
    · rw [List.getLast?_cons_cons]
      exact List.getLast?_eq_getLast _ hnexs

theorem parseIntDigits_spine (cs l rest : List Char)
    (h : parseIntDigits cs = some (l, rest)) :
    ∃ d, isDigitChar d = true ∧ EndsWith cs rest d := by
  cases cs with
  | nil => simp [parseIntDigits] at h
  | cons c t =>
    rw [parseIntDigits] at h
    by_cases h0 : c = '0'
    · rw [if_pos h0] at h
      simp only [Option.some.injEq, Prod.mk.injEq] at h
      subst h0
      exact ⟨'0', by decide, by rw [← h.2]; exact EndsWith.single '0' t⟩
    · rw [if_neg h0] at h
      by_cases hd : isDigitChar c = true
      · rw [if_pos hd] at h
        simp only [Option.some.injEq, Prod.mk.injEq] at h
        rw [← h.2]
        by_cases htw : t.takeWhile isDigitChar = []
        · refine ⟨c, hd, ⟨[c], ?_, rfl⟩⟩
          have h3 : t.takeWhile isDigitChar ++ t.dropWhile isDigitChar = t :=
            List.takeWhile_append_dropWhile isDigitChar t
          rw [htw, List.nil_append] at h3
          rw [h3]
          rfl
        · exact endsWith_digit_tail c t htw
      · rw [if_neg hd] at h
        cases h

theorem parseFracPart_spine (cs l rest : List Char)
    (h : parseFracPart cs = some (l, rest)) :
    rest = cs ∨ ∃ d, isDigitChar d = true ∧ EndsWith cs rest d := by
  cases cs with
  | nil =>
    rw [parseFracPart] at h
    simp only [Option.some.injEq, Prod.mk.injEq] at h
    exact Or.inl h.2.symm
  | cons c t =>
    rw [parseFracPart] at h
    by_cases hdot : c = '.'
    · rw [if_pos hdot] at h
      by_cases htw : t.takeWhile isDigitChar = []
      · rw [if_pos htw] at h
        cases h
      · rw [if_neg htw] at h
        simp only [Option.some.injEq, Prod.mk.injEq] at h
        right
        rw [← h.2]
        exact endsWith_digit_tail c t htw
    · rw [if_neg hdot] at h
      simp only [Option.some.injEq, Prod.mk.injEq] at h
      exact Or.inl h.2.symm

theorem parseExpPart_spine (cs l rest : List Char)
    (h : parseExpPart cs = some (l, rest)) :
    rest = cs ∨ ∃ d, isDigitChar d = true ∧ EndsWith cs rest d := by
  cases cs with
  | nil =>
    rw [parseExpPart] at h
    simp only [Option.some.injEq, Prod.mk.injEq] at h
    exact Or.inl h.2.symm
  | cons c t =>
    rw [parseExpPart] at h
    split at h
    · split at h
      · rename_i hsgn
        split at h
        · simp at h
        · rename_i hne
          simp only [Option.some.injEq, Prod.mk.injEq] at h
          right
          rw [← h.2]
          simp only [Bool.or_eq_true, decide_eq_true_eq] at hsgn
          cases t with
          | nil => simp at hsgn
          | cons s t' =>
            have hdrop : (s :: t').drop 1 = t' := rfl
            rw [hdrop] at hne ⊢
            obtain ⟨d, hd, hE⟩ := endsWith_digit_tail s t' hne
            exact ⟨d, hd, EndsWith.cons c hE⟩
      · split at h
        · simp at h
        · rename_i hne
          simp only [Option.some.injEq, Prod.mk.injEq] at h
          right
          rw [← h.2]
          exact endsWith_digit_tail c t hne
    · simp only [Option.some.injEq, Prod.mk.injEq] at h
      exact Or.inl h.2.symm

theorem parseNumMag_spine (cs l rest : List Char) (h : parseNumMag cs = some (l, rest)) :
    ∃ d, isDigitChar d = true ∧ EndsWith cs rest d := by
  rw [parseNumMag] at h
  split at h
  · simp at h
  · rename_i r1 h1
    split at h
    · simp at h
    · rename_i r2 h2
      split at h
      · simp at h
      · rename_i r3 h3
        simp only [Option.some.injEq, Prod.mk.injEq] at h
        obtain ⟨d1, hd1, hE1⟩ := parseIntDigits_spine cs r1.1 r1.2 (by rw [h1])
        have hF := parseFracPart_spine r1.2 r2.1 r2.2 (by rw [h2])
        have hX := parseExpPart_spine r2.2 r3.1 r3.2 (by rw [h3])
        rw [← h.2]
        have step2 : ∃ d, isDigitChar d = true ∧ EndsWith cs r2.2 d := by
          rcases hF with hF | ⟨d2, hd2, hE2⟩
          · exact ⟨d1, hd1, by rw [hF]; exact hE1⟩
          · exact ⟨d2, hd2, EndsWith.trans hE1 hE2⟩
        rcases step2 with ⟨d, hd, hE⟩
        rcases hX with hX | ⟨d3, hd3, hE3⟩
        · exact ⟨d, hd, by rw [hX]; exact hE⟩
        · exact ⟨d3, hd3, EndsWith.trans hE hE3⟩

theorem parseNumberTok_spine (cs l rest : List Char)
    (h : parseNumberTok cs = some (l, rest)) :
    ∃ d, isDigitChar d = true ∧ EndsWith cs rest d := by
  cases cs with
  | nil => simp [parseNumberTok] at h
  | cons c t =>
    rw [parseNumberTok] at h
    by_cases hm : c = '-'
    · rw [if_pos hm] at h
      cases h1 : parseNumMag t with
      | none => rw [h1] at h; simp at h
      | some r =>
        rw [h1] at h
        simp only [Option.some.injEq, Prod.mk.injEq] at h
        obtain ⟨d, hd, hE⟩ := parseNumMag_spine t r.1 r.2 (by rw [h1])
        exact ⟨d, hd, by rw [← h.2]; exact EndsWith.cons c hE⟩
    · rw [if_neg hm] at h
      exact parseNumMag_spine (c :: t) l rest h

theorem parser_spine (fuel : Nat) :
    (∀ cs v rest, parseValue fuel cs = some (v, rest) →
      ∃ c, endOkChar c ∧ EndsWith cs rest c) ∧
    (∀ cs m rest, parseMembers fuel cs = some (m, rest) → EndsWith cs rest rbrace) ∧
    (∀ cs e rest, parseElems fuel cs = some (e, rest) → EndsWith cs rest ']') := by
  induction fuel with
  | zero =>
    refine ⟨?_, ?_, ?_⟩
    · intro cs v rest h
      rw [parseValue] at h
      cases h
    · intro cs m rest h
      rw [parseMembers] at h
      cases h
    · intro cs e rest h
      rw [parseElems] at h
      cases h
  | succ n ih =>
    obtain ⟨ihV, ihM, ihE⟩ := ih
    refine ⟨?_, ?_, ?_⟩
    · intro cs v rest h
      cases cs with
      | nil =>
        have hnone : parseValue (n + 1) [] = none := by
          rw [parseValue]
          omega
        rw [hnone] at h
        cases h
      | cons c t =>
        rw [parseValue] at h
        split at h
        · rename_i hc
          split at h
          · simp at h
          · rename_i c2 r hskip
            split at h
            · rename_i hc2
              simp only [Option.some.injEq, Prod.mk.injEq] at h
              refine ⟨rbrace, Or.inr (Or.inl rfl), ?_⟩
              rw [← h.2]
              subst hc
              subst hc2
              refine EndsWith.cons lbrace (EndsWith.ofSkipWs ?_)
              rw [hskip]
              exact EndsWith.single rbrace r
            · rename_i hc2
              split at h
              · simp at h
              · rename_i m hm
                simp only [Option.some.injEq, Prod.mk.injEq] at h
                refine ⟨rbrace, Or.inr (Or.inl rfl), ?_⟩
                rw [← h.2]
                subst hc
                refine EndsWith.cons lbrace (EndsWith.ofSkipWs ?_)
                rw [hskip]
                exact ihM (c2 :: r) m.1 m.2 (by rw [hm])
        · split at h
          · rename_i hc
            split at h
            · simp at h
            · rename_i c2 r hskip
              split at h
              · rename_i hc2
                simp only [Option.some.injEq, Prod.mk.injEq] at h
                refine ⟨']', Or.inr (Or.inr (Or.inl rfl)), ?_⟩
                rw [← h.2]
                subst hc
                subst hc2
                refine EndsWith.cons '[' (EndsWith.ofSkipWs ?_)
                rw [hskip]
                exact EndsWith.single ']' r
              · rename_i hc2
                split at h
                · simp at h
                · rename_i m hm
                  simp only [Option.some.injEq, Prod.mk.injEq] at h
                  refine ⟨']', Or.inr (Or.inr (Or.inl rfl)), ?_⟩
                  rw [← h.2]
                  subst hc
                  refine EndsWith.cons '[' (EndsWith.ofSkipWs ?_)
                  rw [hskip]
                  exact ihE (c2 :: r) m.1 m.2 (by rw [hm])
          · split at h
            · rename_i hc
              split at h
              · simp at h
              · rename_i r hr
                simp only [Option.some.injEq, Prod.mk.injEq] at h
                refine ⟨'"', Or.inl rfl, ?_⟩
                rw [← h.2]
                subst hc
                exact EndsWith.cons '"' (parseStringBody_spine t r.1 r.2 (by rw [hr]))
            · split at h
              · rename_i hc
                split at h
                · rename_i htake
                  simp only [Option.some.injEq, Prod.mk.injEq] at h
                  refine ⟨'e', Or.inr (Or.inr (Or.inr (Or.inl rfl))), ?_⟩
                  rw [← h.2]
                  subst hc
                  refine ⟨['t', 'r', 'u', 'e'], ?_, rfl⟩
                  have hsplit : t = t.take 3 ++ t.drop 3 := (List.take_append_drop 3 t).symm
                  rw [htake] at hsplit
                  nth_rewrite 1 [hsplit]
                  rfl
                · simp at h
              · split at h
                · rename_i hc
                  split at h
                  · rename_i htake
                    simp only [Option.some.injEq, Prod.mk.injEq] at h
                    refine ⟨'e', Or.inr (Or.inr (Or.inr (Or.inl rfl))), ?_⟩
                    rw [← h.2]
                    subst hc
                    refine ⟨['f', 'a', 'l', 's', 'e'], ?_, rfl⟩
                    have hsplit : t = t.take 4 ++ t.drop 4 := (List.take_append_drop 4 t).symm
                    rw [htake] at hsplit
                    nth_rewrite 1 [hsplit]
                    rfl
                  · simp at h
                · split at h
                  · rename_i hc
                    split at h
                    · rename_i htake
                      simp only [Option.some.injEq, Prod.mk.injEq] at h
                      refine ⟨'l', Or.inr (Or.inr (Or.inr (Or.inr (Or.inl rfl)))), ?_⟩
                      rw [← h.2]
                      subst hc
                      refine ⟨['n', 'u', 'l', 'l'], ?_, rfl⟩
                      have hsplit : t = t.take 3 ++ t.drop 3 := (List.take_append_drop 3 t).symm
                      rw [htake] at hsplit
                      nth_rewrite 1 [hsplit]
                      rfl
                    · simp at h
                  · split at h
                    · split at h
                      · simp at h
                      · rename_i r hr
                        simp only [Option.some.injEq, Prod.mk.injEq] at h
                        obtain ⟨d, hd, hE⟩ := parseNumberTok_spine (c :: t) r.1 r.2 (by rw [hr])
                        refine ⟨d, Or.inr (Or.inr (Or.inr (Or.inr (Or.inr hd)))), ?_⟩
                        rw [← h.2]
                        exact hE
                    · simp at h
    · intro cs m rest h
      cases cs with
      | nil =>
        have hnone : parseMembers (n + 1) [] = none := by
          rw [parseMembers]
          omega
        rw [hnone] at h
        cases h
      | cons c t =>
        rw [parseMembers] at h
        split at h
        · rename_i hc
          split at h
          · simp at h
          · rename_i k hk
            split at h
            · simp at h
            · rename_i c2 r2 hskip2
              split at h
              · rename_i hc2
                split at h
                · simp at h
                · rename_i v' hv
                  split at h
                  · simp at h
                  · rename_i c3 r4 hskip3
                    split at h
                    · rename_i hc3
                      split at h
                      · simp at h
                      · rename_i ms hms
                        simp only [Option.some.injEq, Prod.mk.injEq] at h
                        rw [← h.2]
                        subst hc
                        have E1 : EndsWith t k.2 '"' :=
                          parseStringBody_spine t k.1 k.2 (by rw [hk])
                        obtain ⟨cv, hcv, E2⟩ := ihV (skipWs r2) v'.1 v'.2 (by rw [hv])
                        have E2b : EndsWith k.2 v'.2 cv := by
                          refine EndsWith.ofSkipWs ?_
                          rw [hskip2]
                          subst hc2
                          exact EndsWith.cons ':' (EndsWith.ofSkipWs E2)
                        have E3 : EndsWith v'.2 ms.2 rbrace := by
                          refine EndsWith.ofSkipWs ?_
                          rw [hskip3]
                          subst hc3
                          refine EndsWith.cons ',' (EndsWith.ofSkipWs ?_)
                          exact ihM (skipWs r4) ms.1 ms.2 (by rw [hms])
                        exact EndsWith.cons '"' (EndsWith.trans (EndsWith.trans E1 E2b) E3)
                    · rename_i hc3
                      split at h
                      · rename_i hc3b
                        simp only [Option.some.injEq, Prod.mk.injEq] at h
                        rw [← h.2]
                        subst hc
                        have E1 : EndsWith t k.2 '"' :=
                          parseStringBody_spine t k.1 k.2 (by rw [hk])
                        obtain ⟨cv, hcv, E2⟩ := ihV (skipWs r2) v'.1 v'.2 (by rw [hv])
                        have E2b : EndsWith k.2 v'.2 cv := by
                          refine EndsWith.ofSkipWs ?_
                          rw [hskip2]
                          subst hc2
                          exact EndsWith.cons ':' (EndsWith.ofSkipWs E2)
                        have E3 : EndsWith v'.2 r4 rbrace := by
                          refine EndsWith.ofSkipWs ?_
                          rw [hskip3]
                          subst hc3b
                          exact EndsWith.single rbrace r4
                        exact EndsWith.cons '"' (EndsWith.trans (EndsWith.trans E1 E2b) E3)
                      · simp at h
              · simp at h
        · simp at h
    · intro cs e rest h
      rw [parseElems] at h
      split at h
      · simp at h
      · rename_i v' hv
        split at h
        · simp at h
        · rename_i c2 r2 hskip
          split at h
          · rename_i hc2
            split at h
            · simp at h
            · rename_i vs hvs
              simp only [Option.some.injEq, Prod.mk.injEq] at h
              rw [← h.2]
              obtain ⟨cv, hcv, E1⟩ := ihV cs v'.1 v'.2 (by rw [hv])
              have E2 : EndsWith v'.2 vs.2 ']' := by
                refine EndsWith.ofSkipWs ?_
                rw [hskip]
                subst hc2
                refine EndsWith.cons ',' (EndsWith.ofSkipWs ?_)
                exact ihE (skipWs r2) vs.1 vs.2 (by rw [hvs])
              exact EndsWith.trans E1 E2
          · rename_i hc2
            split at h
            · rename_i hc2b
              simp only [Option.some.injEq, Prod.mk.injEq] at h
              rw [← h.2]
              obtain ⟨cv, hcv, E1⟩ := ihV cs v'.1 v'.2 (by rw [hv])
              have E2 : EndsWith v'.2 r2 ']' := by
                refine EndsWith.ofSkipWs ?_
                rw [hskip]
                subst hc2b
                exact EndsWith.single ']' r2
              exact EndsWith.trans E1 E2
            · simp at h

theorem scanFix_id (cs : List Char)
    (h : ∀ c ∈ cs, c ≠ '\n' ∧ c ≠ '\r' ∧ c ≠ '\t') :
    ∀ b p, scanFix b p cs = cs := by
  induction cs with
  | nil => intro b p; rfl
  | cons c t ih =>
    intro b p
    have hc := h c (List.mem_cons_self c t)
    have ht : ∀ x ∈ t, x ≠ '\n' ∧ x ≠ '\r' ∧ x ≠ '\t' :=
      fun x hx => h x (List.mem_cons_of_mem c hx)
    rw [scanFix]
    by_cases h1 : c = '"' ∧ p ≠ some '\\'
    · rw [if_pos h1, ih ht]
    · rw [if_neg h1]
      by_cases h2 : b = true
      · rw [if_pos h2]
        rw [if_neg hc.1, if_neg hc.2.1, if_neg hc.2.2]
        rw [ih ht]
        rfl
      · rw [if_neg h2, ih ht]

theorem isDigitChar_facts (c : Char) (h : isDigitChar c = true) :
    isWsChar c = false ∧ c ≠ Char.ofNat 96 := by
  constructor
  · cases hws : isWsChar c with
    | false => rfl
    | true =>
      exfalso
      rw [isWsChar] at hws
      simp only [Bool.or_eq_true, decide_eq_true_eq] at hws
      rcases hws with ((h1 | h1) | h1) | h1 <;> (subst h1; exact absurd h (by decide))
  · intro hc
    subst hc
    exact absurd h (by decide)

theorem endOkChar_facts (c : Char) (h : endOkChar c) :
    isWsChar c = false ∧ c ≠ Char.ofNat 96 := by
  unfold endOkChar at h
  rcases h with h1 | h1 | h1 | h1 | h1 | h1
  · subst h1; exact ⟨by decide, by decide⟩
  · subst h1; exact ⟨by decide, by decide⟩
  · subst h1; exact ⟨by decide, by decide⟩
  · subst h1; exact ⟨by decide, by decide⟩
  · subst h1; exact ⟨by decide, by decide⟩
  · exact isDigitChar_facts c h1

theorem parseValue_head (fuel : Nat) (cs : List Char) (v : Json) (rest : List Char)
    (h : parseValue fuel cs = some (v, rest)) :
    ∃ c t, cs = c :: t ∧
      (c = lbrace ∨ c = '[' ∨ c = '"' ∨ c = 't' ∨ c = 'f' ∨ c = 'n' ∨
       (decide (c = '-') || isDigitChar c) = true) := by
  cases fuel with
  | zero =>
    rw [parseValue] at h
    cases h
  | succ n =>
    cases cs with
    | nil =>
      have hnone : parseValue (n + 1) [] = none := by
        rw [parseValue]
        omega
      rw [hnone] at h
      cases h
    | cons c t =>
      refine ⟨c, t, rfl, ?_⟩
      rw [parseValue] at h
      split at h
      · rename_i h1
        exact Or.inl h1
      · split at h
        · rename_i h2
          exact Or.inr (Or.inl h2)
        · split at h
          · rename_i h3
            exact Or.inr (Or.inr (Or.inl h3))
          · split at h
            · rename_i h4
              exact Or.inr (Or.inr (Or.inr (Or.inl h4)))
            · split at h
              · rename_i h5
                exact Or.inr (Or.inr (Or.inr (Or.inr (Or.inl h5))))
              · split at h
                · rename_i h6
                  exact Or.inr (Or.inr (Or.inr (Or.inr (Or.inr (Or.inl h6)))))
                · split at h
                  · rename_i h7
                    exact Or.inr (Or.inr (Or.inr (Or.inr (Or.inr (Or.inr h7)))))
                  · simp at h

theorem head_char_facts (fuel : Nat) (cs : List Char) (v : Json) (rest : List Char)
    (h : parseValue fuel cs = some (v, rest)) :
    ∃ c t, cs = c :: t ∧ isWsChar c = false ∧ c ≠ Char.ofNat 96 := by
  obtain ⟨c, t, hcs, hd⟩ := parseValue_head fuel cs v rest h
  refine ⟨c, t, hcs, ?_⟩
  rcases hd with h1 | h1 | h1 | h1 | h1 | h1 | h1
  · subst h1; exact ⟨by decide, by decide⟩
  · subst h1; exact ⟨by decide, by decide⟩
  · subst h1; exact ⟨by decide, by decide⟩
  · subst h1; exact ⟨by decide, by decide⟩
  · subst h1; exact ⟨by decide, by decide⟩
  · subst h1; exact ⟨by decide, by decide⟩
  · simp only [Bool.or_eq_true, decide_eq_true_eq] at h1
    rcases h1 with h1 | h1
    · subst h1; exact ⟨by decide, by decide⟩
    · exact isDigitChar_facts c h1

theorem stripFront_eq_self (c : Char) (t : List Char) (hc : c ≠ Char.ofNat 96) :
    stripFront (c :: t) = c :: t := by
  rw [stripFront]
  have h7 : ¬((c :: t).take 7 = "```json".data) := by
    intro hEq
    exact hc (Option.some.inj (congrArg List.head? hEq))
  have h3 : ¬((c :: t).take 3 = "```".data) := by
    intro hEq
    exact hc (Option.some.inj (congrArg List.head? hEq))
  rw [if_neg h7, if_neg h3]

theorem stripEnd_eq_self (X : List Char)
    (hlast : X.getLast? ≠ some (Char.ofNat 96)) :
    stripEnd X = X := by
  rw [stripEnd]
  have hcond : ¬(3 ≤ X.length ∧ X.drop (X.length - 3) = "```".data) := by
    rintro ⟨hlen, hdrop⟩
    apply hlast
    have hsplit : X = X.take (X.length - 3) ++ X.drop (X.length - 3) :=
      (List.take_append_drop _ X).symm
    rw [hsplit, List.getLast?_append, hdrop]
    rfl
  rw [if_neg hcond]

theorem mem_trimL (l : List Char) (c : Char) (h : c ∈ trimL l) : c ∈ l := by
  rw [trimL] at h
  rw [List.mem_reverse] at h
  have h2 := List.Sublist.mem h (List.dropWhile_sublist _)
  rw [List.mem_reverse] at h2
  exact List.Sublist.mem h2 (List.dropWhile_sublist _)

/-- C7 (amended): `sanitizeJsonResponse` is parse-preserving on already-valid
JSON provided the text contains no raw newline, carriage-return or tab
characters at all (the original claim, which only excluded raw newlines
*inside string literals*, is refuted by `repair_idempotent_counterexample`:
the quote heuristic desyncs on an escaped backslash, so a raw newline
*between* tokens gets escaped and the repaired text no longer parses).  For
every string `s` that `JSON.parse` accepts and that contains no raw
`\n`/`\r`/`\t` anywhere, parsing the repaired text yields the same
structure. -/
theorem repair_idempotent (s : String) (v : Json)
    (hparse : jsonParse s = some v)
    (hclean : ∀ c ∈ s.data, c ≠ '\n' ∧ c ≠ '\r' ∧ c ≠ '\t') :
    jsonParse (sanitizeJsonResponse s) = some v := by
  rw [jsonParse, parseJsonList] at hparse
  split at hparse
  · rename_i r hr
    split at hparse
    · rename_i hr2
      obtain ⟨c, t, hX, hws, hbt⟩ := head_char_facts _ _ r.1 r.2 hr
      obtain ⟨ce, hce, hE⟩ :=
        (parser_spine ((trimL s.data).length + 1)).1 (trimL s.data) r.1 r.2 hr
      rw [hr2] at hE
      obtain ⟨pre, hpre, hlastpre⟩ := hE
      rw [List.append_nil] at hpre
      have hlastX : (trimL s.data).getLast? = some ce := by
        rw [hpre]
        exact hlastpre
      obtain ⟨hws2, hbt2⟩ := endOkChar_facts ce hce
      have hfront : stripFront (trimL s.data) = trimL s.data := by
        rw [hX]
        exact stripFront_eq_self c t hbt
      have hend : stripEnd (trimL s.data) = trimL s.data := by
        apply stripEnd_eq_self
        rw [hlastX]
        intro hEq
        exact hbt2 (Option.some.inj hEq)
      have htrim : trimL (trimL s.data) = trimL s.data := by
        apply trimL_eq_self
        · intro c0 hc0
          rw [hX] at hc0
          simp only [List.head?_cons, Option.some.injEq] at hc0
          rw [← hc0]
          exact hws
        · intro c0 hc0
          rw [hlastX] at hc0
          rw [← Option.some.inj hc0]
          exact hws2
      have hscan : scanFix false none (trimL s.data) = trimL s.data :=
        scanFix_id (trimL s.data)
          (fun c0 hc0 => hclean c0 (mem_trimL s.data c0 hc0)) false none
      have hsan : sanitizeList s.data = trimL s.data := by
        rw [sanitizeList, stripFences, hfront, hend, htrim, hscan]
      have hdata : (sanitizeJsonResponse s).data = trimL s.data := hsan
      rw [jsonParse, parseJsonList, hdata, htrim, hr]
      show (if r.2 = [] then some r.1 else none) = some v
      rw [if_pos hr2]
      exact hparse
    · simp at hparse
  · simp at hparse

theorem repair_idempotent_witness :
    jsonParse "\x7b\"a\": 1\x7d" = some (Json.jobj [("a", Json.jnum "1")]) ∧
    (∀ c ∈ ("\x7b\"a\": 1\x7d" : String).data, c ≠ '\n' ∧ c ≠ '\r' ∧ c ≠ '\t') ∧
    jsonParse (sanitizeJsonResponse "\x7b\"a\": 1\x7d")
      = some (Json.jobj [("a", Json.jnum "1")]) :=
  ⟨by rfl, by decide,
   repair_idempotent "\x7b\"a\": 1\x7d" (Json.jobj [("a", Json.jnum "1")])
     (by rfl) (by decide)⟩
